import Mathlib

/-!
Verification development for the radixdlt-scrypto core: a shallow embedding
of the codec, substate store, resource containers, auth module, manifest
decoder, non-fungible id validation and the WASM runtime buffer table,
with theorems settling the specified behavioural claims.

Bytes are modelled as natural numbers below 256 inside plain lists;
machine integers are modelled as Nat or Int with explicit range
hypotheses where the Rust width matters.
-/

namespace Sbor

/-- Little-endian byte expansion of a natural number to a fixed width,
mirroring the Rust to_le_bytes output of a value already within range. -/
def natToLE : Nat → Nat → List Nat
  | 0, _ => []
  | w + 1, n => n % 256 :: natToLE w (n / 256)

/-- Value of a little-endian byte list, mirroring from_le_bytes. -/
def leToNat : List Nat → Nat
  | [] => 0
  | b :: bs => b + 256 * leToNat bs

theorem natToLE_length (w n : Nat) : (natToLE w n).length = w := by
  induction w generalizing n with
  | zero => rfl
  | succ w ih => simp [natToLE, ih]

theorem mod_mul_256 (n b : Nat) : n % (256 * b) = n % 256 + 256 * (n / 256 % b) := by
  rcases Nat.eq_zero_or_pos b with hb | hb
  · subst hb
    have hd := Nat.div_add_mod n 256
    simp only [Nat.mul_zero, Nat.mod_zero]
    omega
  · have hq : 256 * (n / 256) + n % 256 = n := Nat.div_add_mod n 256
    have hsplit : n = 256 * (n / 256 % b) + n % 256 + 256 * b * (n / 256 / b) := by
      have := Nat.div_add_mod (n / 256) b
      calc n = 256 * (n / 256) + n % 256 := hq.symm
      _ = 256 * (b * (n / 256 / b) + n / 256 % b) + n % 256 := by rw [this]
      _ = 256 * (n / 256 % b) + n % 256 + 256 * b * (n / 256 / b) := by ring
    calc n % (256 * b)
        = (256 * (n / 256 % b) + n % 256 + 256 * b * (n / 256 / b)) % (256 * b) := by
          rw [← hsplit]
      _ = (256 * (n / 256 % b) + n % 256) % (256 * b) := by
          rw [Nat.add_mul_mod_self_left]
      _ = 256 * (n / 256 % b) + n % 256 := by
          apply Nat.mod_eq_of_lt
          have h1 : n / 256 % b < b := Nat.mod_lt _ hb
          have h2 : n % 256 < 256 := Nat.mod_lt _ (by norm_num)
          calc 256 * (n / 256 % b) + n % 256 < 256 * (n / 256 % b) + 256 := by omega
          _ = 256 * (n / 256 % b + 1) := by ring
          _ ≤ 256 * b := Nat.mul_le_mul_left _ (by omega)
      _ = n % 256 + 256 * (n / 256 % b) := by ring

theorem leToNat_natToLE (w n : Nat) : leToNat (natToLE w n) = n % 256 ^ w := by
  induction w generalizing n with
  | zero => simp [natToLE, leToNat, Nat.mod_one]
  | succ w ih =>
    simp only [natToLE, leToNat, ih]
    rw [pow_succ, mul_comm (256 ^ w) 256, mod_mul_256]

theorem natToLE_leToNat (bs : List Nat) (h : ∀ b ∈ bs, b < 256) :
    natToLE bs.length (leToNat bs) = bs := by
  induction bs with
  | nil => rfl
  | cons b t ih =>
    have hb : b < 256 := h b (by simp)
    have ht : ∀ x ∈ t, x < 256 := fun x hx => h x (by simp [hx])
    simp only [List.length_cons, natToLE, leToNat]
    have h1 : (b + 256 * leToNat t) % 256 = b := by omega
    have h2 : (b + 256 * leToNat t) / 256 = leToNat t := by omega
    rw [h1, h2, ih ht]

theorem leToNat_lt (bs : List Nat) (h : ∀ b ∈ bs, b < 256) :
    leToNat bs < 256 ^ bs.length := by
  induction bs with
  | nil => simp [leToNat]
  | cons b t ih =>
    have hb : b < 256 := h b (by simp)
    have ht := ih (fun x hx => h x (by simp [hx]))
    simp only [leToNat, List.length_cons, Nat.pow_succ]
    calc b + 256 * leToNat t < 256 + 256 * leToNat t := by omega
    _ = 256 * (leToNat t + 1) := by ring
    _ ≤ 256 * 256 ^ t.length := Nat.mul_le_mul_left _ ht
    _ = 256 ^ t.length * 256 := by ring

theorem natToLE_bytes_lt (w n : Nat) : ∀ b ∈ natToLE w n, b < 256 := by
  induction w generalizing n with
  | zero => simp [natToLE]
  | succ w ih =>
    intro b hb
    simp only [natToLE, List.mem_cons] at hb
    rcases hb with h | h
    · omega
    · exact ih _ b h

/-- Body encoder of an unsigned integer of w bytes: to_le_bytes. -/
def encU (w : Nat) (v : Nat) : List Nat := natToLE w v

/-- Body decoder of an unsigned integer of w bytes: read_slice w then
from_le_bytes; short or long bodies are a decode error. -/
def decU (w : Nat) (bs : List Nat) : Option Nat :=
  if bs.length = w then some (leToNat bs) else none

/-- Representative below 2 ^ (8 w) of a signed value, as the cast from iN
to unsigned little-endian bytes produces it. -/
def toTwos (w : Nat) (v : Int) : Nat := (v % ((2 : Int) ^ (8 * w))).toNat

/-- Body encoder of a signed integer of w bytes: to_le_bytes of the wrapped
representative. -/
def encI (w : Nat) (v : Int) : List Nat := natToLE w (toTwos w v)

/-- Body decoder of a signed integer of w bytes: read_slice w, then
from_le_bytes read back with the top bit as the sign. -/
def decI (w : Nat) (bs : List Nat) : Option Int :=
  if bs.length = w then
    some (if leToNat bs < 2 ^ (8 * w - 1) then (leToNat bs : Int)
          else (leToNat bs : Int) - 2 ^ (8 * w))
  else none

theorem decU_encU (w v : Nat) (h : v < 256 ^ w) : decU w (encU w v) = some v := by
  simp [decU, encU, natToLE_length, leToNat_natToLE, Nat.mod_eq_of_lt h]

theorem encU_decU (w : Nat) (bs : List Nat) (h1 : bs.length = w)
    (h2 : ∀ b ∈ bs, b < 256) :
    decU w bs = some (leToNat bs) ∧ encU w (leToNat bs) = bs := by
  refine ⟨by simp [decU, h1], ?_⟩
  simp only [encU, ← h1]
  exact natToLE_leToNat bs h2

theorem pow_256_eq (w : Nat) : 256 ^ w = 2 ^ (8 * w) := by
  rw [show (256 : Nat) = 2 ^ 8 by norm_num, ← Nat.pow_mul]

theorem toTwos_lt (w : Nat) (v : Int) : toTwos w v < 2 ^ (8 * w) := by
  have hpos : (0 : Int) < (2 : Int) ^ (8 * w) := by positivity
  have hub := Int.emod_lt_of_pos v hpos
  have h0 := Int.emod_nonneg v (ne_of_gt hpos)
  have hcast : ((2 ^ (8 * w) : Nat) : Int) = (2 : Int) ^ (8 * w) := by push_cast; ring
  simp only [toTwos]
  omega

theorem decI_encI_eq (w : Nat) (v : Int) :
    decI w (encI w v)
      = some (if toTwos w v < 2 ^ (8 * w - 1) then ((toTwos w v : Nat) : Int)
              else ((toTwos w v : Nat) : Int) - 2 ^ (8 * w)) := by
  have h : toTwos w v < 256 ^ w := by rw [pow_256_eq]; exact toTwos_lt w v
  simp [decI, encI, natToLE_length, leToNat_natToLE, Nat.mod_eq_of_lt h]

theorem decI_encI (w : Nat) (v : Int) (hw : 1 ≤ w)
    (hlo : -(2 ^ (8 * w - 1)) ≤ v) (hhi : v < 2 ^ (8 * w - 1)) :
    decI w (encI w v) = some v := by
  rw [decI_encI_eq]
  congr 1
  have h8 : 8 * w = (8 * w - 1) + 1 := by omega
  have hpos : (0 : Int) < (2 : Int) ^ (8 * w) := by positivity
  have hsplit : ((2 : Int) ^ (8 * w)) = 2 * (2 : Int) ^ (8 * w - 1) := by
    conv_lhs => rw [h8]
    rw [pow_succ]; ring
  have hnn := Int.emod_nonneg v (ne_of_gt hpos)
  have hub := Int.emod_lt_of_pos v hpos
  have hcast : ((toTwos w v : Nat) : Int) = v % (2 : Int) ^ (8 * w) := by
    simp [toTwos, Int.toNat_of_nonneg hnn]
  have hcasthalf : ((2 ^ (8 * w - 1) : Nat) : Int) = (2 : Int) ^ (8 * w - 1) := by
    push_cast; ring
  have hhpos : (0 : Int) ≤ (2 : Int) ^ (8 * w - 1) := by positivity
  rcases le_or_lt 0 v with hv | hv
  · have hmodeq : v % (2 : Int) ^ (8 * w) = v := Int.emod_eq_of_lt hv (by omega)
    have hc : toTwos w v < 2 ^ (8 * w - 1) := by
      have : ((toTwos w v : Nat) : Int) < ((2 ^ (8 * w - 1) : Nat) : Int) := by
        rw [hcast, hmodeq, hcasthalf]; exact hhi
      exact_mod_cast this
    rw [if_pos hc, hcast, hmodeq]
  · have hmodeq : v % (2 : Int) ^ (8 * w) = v + 2 ^ (8 * w) := by
      have e1 := Int.add_mul_emod_self_left v ((2 : Int) ^ (8 * w)) 1
      rw [mul_one] at e1
      have e2 : (v + (2 : Int) ^ (8 * w)) % (2 : Int) ^ (8 * w)
          = v % (2 : Int) ^ (8 * w) := e1
      rw [← e2]
      exact Int.emod_eq_of_lt (by omega) (by omega)
    have hc : ¬ toTwos w v < 2 ^ (8 * w - 1) := by
      intro hcon
      have : ((toTwos w v : Nat) : Int) < ((2 ^ (8 * w - 1) : Nat) : Int) := by
        exact_mod_cast hcon
      rw [hcast, hmodeq, hcasthalf] at this
      omega
    rw [if_neg hc, hcast, hmodeq]
    ring

theorem encI_decI (w : Nat) (bs : List Nat) (h1 : bs.length = w)
    (h2 : ∀ b ∈ bs, b < 256) :
    ∃ v, decI w bs = some v ∧ encI w v = bs := by
  have hlt : leToNat bs < 2 ^ (8 * w) := by
    have := leToNat_lt bs h2
    rw [h1, pow_256_eq] at this
    exact this
  refine ⟨if leToNat bs < 2 ^ (8 * w - 1) then ((leToNat bs : Nat) : Int)
      else ((leToNat bs : Nat) : Int) - 2 ^ (8 * w), by simp [decI, h1], ?_⟩
  have hkey : toTwos w (if leToNat bs < 2 ^ (8 * w - 1) then ((leToNat bs : Nat) : Int)
      else ((leToNat bs : Nat) : Int) - 2 ^ (8 * w)) = leToNat bs := by
    by_cases hc : leToNat bs < 2 ^ (8 * w - 1)
    · rw [if_pos hc]
      simp only [toTwos]
      rw [Int.emod_eq_of_lt (by positivity) (by exact_mod_cast hlt)]
      simp
    · rw [if_neg hc]
      simp only [toTwos]
      have e1 : (((leToNat bs : Nat) : Int) - 2 ^ (8 * w)) % (2 : Int) ^ (8 * w)
          = ((leToNat bs : Nat) : Int) % (2 : Int) ^ (8 * w) := by
        conv_rhs => rw [show ((leToNat bs : Nat) : Int)
          = ((leToNat bs : Nat) : Int) - 2 ^ (8 * w) + 2 ^ (8 * w) * 1 by ring]
        rw [Int.add_mul_emod_self_left]
      rw [e1, Int.emod_eq_of_lt (by positivity) (by exact_mod_cast hlt)]
      simp
  simp only [encI]
  rw [hkey, ← h1]
  exact natToLE_leToNat bs h2

/-- Encode body of u8: write_byte of the value itself. -/
def u8_encode_body (v : Nat) : List Nat := [v]

/-- Decode body of u8: read_byte. -/
def u8_decode_body (bs : List Nat) : Option Nat :=
  match bs with
  | [b] => some b
  | _ => none

/-- Encode body of i8: write_byte of the value cast to u8. -/
def i8_encode_body (v : Int) : List Nat := encI 1 v

/-- Decode body of i8: read_byte cast back to i8. -/
def i8_decode_body (bs : List Nat) : Option Int := decI 1 bs

def u16_encode_body (v : Nat) : List Nat := encU 2 v
def u16_decode_body (bs : List Nat) : Option Nat := decU 2 bs
def u32_encode_body (v : Nat) : List Nat := encU 4 v
def u32_decode_body (bs : List Nat) : Option Nat := decU 4 bs
def u64_encode_body (v : Nat) : List Nat := encU 8 v
def u64_decode_body (bs : List Nat) : Option Nat := decU 8 bs
def u128_encode_body (v : Nat) : List Nat := encU 16 v
def u128_decode_body (bs : List Nat) : Option Nat := decU 16 bs
def i16_encode_body (v : Int) : List Nat := encI 2 v
def i16_decode_body (bs : List Nat) : Option Int := decI 2 bs
def i32_encode_body (v : Int) : List Nat := encI 4 v
def i32_decode_body (bs : List Nat) : Option Int := decI 4 bs
def i64_encode_body (v : Int) : List Nat := encI 8 v
def i64_decode_body (bs : List Nat) : Option Int := decI 8 bs
def i128_encode_body (v : Int) : List Nat := encI 16 v
def i128_decode_body (bs : List Nat) : Option Int := decI 16 bs

end Sbor

namespace Sbor

/-- C1. Codec round-trip for the fixed-width integer codecs: for every
value of i8, u8, i16, u16, i32, u32, i64, u64, i128 and u128, decoding the
encoded body recovers the value, and re-encoding the value decoded from a
canonical body (a byte list of exactly the right width) yields that body
again. -/
theorem sbor_integer_codec_roundtrip :
    (∀ v : Nat, v < 2 ^ 8 → u8_decode_body (u8_encode_body v) = some v) ∧
    (∀ bs : List Nat, bs.length = 1 → (∀ b ∈ bs, b < 256) →
      ∃ v, u8_decode_body bs = some v ∧ u8_encode_body v = bs) ∧
    (∀ v : Int, -(2 ^ 7) ≤ v → v < 2 ^ 7 →
      i8_decode_body (i8_encode_body v) = some v) ∧
    (∀ bs : List Nat, bs.length = 1 → (∀ b ∈ bs, b < 256) →
      ∃ v, i8_decode_body bs = some v ∧ i8_encode_body v = bs) ∧
    (∀ v : Nat, v < 2 ^ 16 → u16_decode_body (u16_encode_body v) = some v) ∧
    (∀ bs : List Nat, bs.length = 2 → (∀ b ∈ bs, b < 256) →
      ∃ v, u16_decode_body bs = some v ∧ u16_encode_body v = bs) ∧
    (∀ v : Int, -(2 ^ 15) ≤ v → v < 2 ^ 15 →
      i16_decode_body (i16_encode_body v) = some v) ∧
    (∀ bs : List Nat, bs.length = 2 → (∀ b ∈ bs, b < 256) →
      ∃ v, i16_decode_body bs = some v ∧ i16_encode_body v = bs) ∧
    (∀ v : Nat, v < 2 ^ 32 → u32_decode_body (u32_encode_body v) = some v) ∧
    (∀ bs : List Nat, bs.length = 4 → (∀ b ∈ bs, b < 256) →
      ∃ v, u32_decode_body bs = some v ∧ u32_encode_body v = bs) ∧
    (∀ v : Int, -(2 ^ 31) ≤ v → v < 2 ^ 31 →
      i32_decode_body (i32_encode_body v) = some v) ∧
    (∀ bs : List Nat, bs.length = 4 → (∀ b ∈ bs, b < 256) →
      ∃ v, i32_decode_body bs = some v ∧ i32_encode_body v = bs) ∧
    (∀ v : Nat, v < 2 ^ 64 → u64_decode_body (u64_encode_body v) = some v) ∧
    (∀ bs : List Nat, bs.length = 8 → (∀ b ∈ bs, b < 256) →
      ∃ v, u64_decode_body bs = some v ∧ u64_encode_body v = bs) ∧
    (∀ v : Int, -(2 ^ 63) ≤ v → v < 2 ^ 63 →
      i64_decode_body (i64_encode_body v) = some v) ∧
    (∀ bs : List Nat, bs.length = 8 → (∀ b ∈ bs, b < 256) →
      ∃ v, i64_decode_body bs = some v ∧ i64_encode_body v = bs) ∧
    (∀ v : Nat, v < 2 ^ 128 → u128_decode_body (u128_encode_body v) = some v) ∧
    (∀ bs : List Nat, bs.length = 16 → (∀ b ∈ bs, b < 256) →
      ∃ v, u128_decode_body bs = some v ∧ u128_encode_body v = bs) ∧
    (∀ v : Int, -(2 ^ 127) ≤ v → v < 2 ^ 127 →
      i128_decode_body (i128_encode_body v) = some v) ∧
    (∀ bs : List Nat, bs.length = 16 → (∀ b ∈ bs, b < 256) →
      ∃ v, i128_decode_body bs = some v ∧ i128_encode_body v = bs) := by
  refine ⟨?_, ?_, ?_, ?_, ?_, ?_, ?_, ?_, ?_, ?_, ?_, ?_, ?_, ?_, ?_, ?_, ?_, ?_, ?_, ?_⟩
  · intro v hv
    rfl
  · intro bs h1 h2
    obtain ⟨b, rfl⟩ := List.length_eq_one.mp h1
    exact ⟨b, rfl, rfl⟩
  · intro v hlo hhi
    exact decI_encI 1 v (by norm_num) (by norm_num; omega) (by norm_num; omega)
  · intro bs h1 h2
    exact encI_decI 1 bs h1 h2
  · intro v hv
    exact decU_encU 2 v (by norm_num; omega)
  · intro bs h1 h2
    obtain ⟨h3, h4⟩ := encU_decU 2 bs h1 h2
    exact ⟨_, h3, h4⟩
  · intro v hlo hhi
    exact decI_encI 2 v (by norm_num) (by norm_num; omega) (by norm_num; omega)
  · intro bs h1 h2
    exact encI_decI 2 bs h1 h2
  · intro v hv
    exact decU_encU 4 v (by norm_num; omega)
  · intro bs h1 h2
    obtain ⟨h3, h4⟩ := encU_decU 4 bs h1 h2
    exact ⟨_, h3, h4⟩
  · intro v hlo hhi
    exact decI_encI 4 v (by norm_num) (by norm_num; omega) (by norm_num; omega)
  · intro bs h1 h2
    exact encI_decI 4 bs h1 h2
  · intro v hv
    exact decU_encU 8 v (by norm_num; omega)
  · intro bs h1 h2
    obtain ⟨h3, h4⟩ := encU_decU 8 bs h1 h2
    exact ⟨_, h3, h4⟩
  · intro v hlo hhi
    exact decI_encI 8 v (by norm_num) (by norm_num; omega) (by norm_num; omega)
  · intro bs h1 h2
    exact encI_decI 8 bs h1 h2
  · intro v hv
    exact decU_encU 16 v (by norm_num; omega)
  · intro bs h1 h2
    obtain ⟨h3, h4⟩ := encU_decU 16 bs h1 h2
    exact ⟨_, h3, h4⟩
  · intro v hlo hhi
    exact decI_encI 16 v (by norm_num) (by norm_num; omega) (by norm_num; omega)
  · intro bs h1 h2
    exact encI_decI 16 bs h1 h2

end Sbor

namespace Sbor

/-- Witness for the integer codec round-trip at concrete values of every
width. -/
theorem sbor_integer_codec_roundtrip_witness :
    u8_decode_body (u8_encode_body 200) = some 200 ∧
    (∃ v, u8_decode_body [9] = some v ∧ u8_encode_body v = [9]) ∧
    i8_decode_body (i8_encode_body (-3)) = some (-3) ∧
    (∃ v, i8_decode_body [255] = some v ∧ i8_encode_body v = [255]) ∧
    u16_decode_body (u16_encode_body 40000) = some 40000 ∧
    (∃ v, u16_decode_body [1, 2] = some v ∧ u16_encode_body v = [1, 2]) ∧
    i16_decode_body (i16_encode_body (-12345)) = some (-12345) ∧
    (∃ v, i16_decode_body [0, 128] = some v ∧ i16_encode_body v = [0, 128]) ∧
    u32_decode_body (u32_encode_body 4000000000) = some 4000000000 ∧
    (∃ v, u32_decode_body [1, 2, 3, 4] = some v ∧ u32_encode_body v = [1, 2, 3, 4]) ∧
    i32_decode_body (i32_encode_body (-2000000000)) = some (-2000000000) ∧
    (∃ v, i32_decode_body [0, 0, 0, 128] = some v ∧ i32_encode_body v = [0, 0, 0, 128]) ∧
    u64_decode_body (u64_encode_body (2 ^ 63 + 5)) = some (2 ^ 63 + 5) ∧
    (∃ v, u64_decode_body [1, 2, 3, 4, 5, 6, 7, 8] = some v ∧
      u64_encode_body v = [1, 2, 3, 4, 5, 6, 7, 8]) ∧
    i64_decode_body (i64_encode_body (-(2 ^ 62))) = some (-(2 ^ 62)) ∧
    (∃ v, i64_decode_body [0, 0, 0, 0, 0, 0, 0, 128] = some v ∧
      i64_encode_body v = [0, 0, 0, 0, 0, 0, 0, 128]) ∧
    u128_decode_body (u128_encode_body (2 ^ 120)) = some (2 ^ 120) ∧
    (∃ v, u128_decode_body [1, 0, 0, 0, 0, 0, 0, 0, 0, 0, 0, 0, 0, 0, 0, 7] = some v ∧
      u128_encode_body v = [1, 0, 0, 0, 0, 0, 0, 0, 0, 0, 0, 0, 0, 0, 0, 7]) ∧
    i128_decode_body (i128_encode_body (-(2 ^ 126))) = some (-(2 ^ 126)) ∧
    (∃ v, i128_decode_body [2, 0, 0, 0, 0, 0, 0, 0, 0, 0, 0, 0, 0, 0, 0, 200] = some v ∧
      i128_encode_body v = [2, 0, 0, 0, 0, 0, 0, 0, 0, 0, 0, 0, 0, 0, 0, 200]) := by
  obtain ⟨a1, a2, a3, a4, a5, a6, a7, a8, a9, a10,
    a11, a12, a13, a14, a15, a16, a17, a18, a19, a20⟩ := sbor_integer_codec_roundtrip
  exact ⟨a1 200 (by norm_num),
    a2 [9] (by decide) (by decide),
    a3 (-3) (by norm_num) (by norm_num),
    a4 [255] (by decide) (by decide),
    a5 40000 (by norm_num),
    a6 [1, 2] (by decide) (by decide),
    a7 (-12345) (by norm_num) (by norm_num),
    a8 [0, 128] (by decide) (by decide),
    a9 4000000000 (by norm_num),
    a10 [1, 2, 3, 4] (by decide) (by decide),
    a11 (-2000000000) (by norm_num) (by norm_num),
    a12 [0, 0, 0, 128] (by decide) (by decide),
    a13 (2 ^ 63 + 5) (by norm_num),
    a14 [1, 2, 3, 4, 5, 6, 7, 8] (by decide) (by decide),
    a15 (-(2 ^ 62)) (by norm_num) (by norm_num),
    a16 [0, 0, 0, 0, 0, 0, 0, 128] (by decide) (by decide),
    a17 (2 ^ 120) (by norm_num),
    a18 [1, 0, 0, 0, 0, 0, 0, 0, 0, 0, 0, 0, 0, 0, 0, 7] (by decide) (by decide),
    a19 (-(2 ^ 126)) (by norm_num) (by norm_num),
    a20 [2, 0, 0, 0, 0, 0, 0, 0, 0, 0, 0, 0, 0, 0, 0, 200] (by decide) (by decide)⟩

end Sbor

namespace Store

/-- Strict lexicographic order on byte strings, the order of the BTreeMap
holding the physical substate table. -/
def bytesLt : List Nat → List Nat → Bool
  | [], [] => false
  | [], _ :: _ => true
  | _ :: _, [] => false
  | a :: as, b :: bs => if a < b then true else if b < a then false else bytesLt as bs

/-- Reflexive closure of the lexicographic order. -/
def bytesLe (a b : List Nat) : Bool := bytesLt a b || decide (a = b)

theorem bytesLt_irrefl (a : List Nat) : bytesLt a a = false := by
  induction a with
  | nil => rfl
  | cons x t ih => simp [bytesLt, ih]

theorem bytesLt_cons_iff (x y : Nat) (as bs : List Nat) :
    bytesLt (x :: as) (y :: bs) = true ↔ (x < y ∨ (x = y ∧ bytesLt as bs = true)) := by
  simp only [bytesLt]
  by_cases h1 : x < y
  · simp [h1]
  · rw [if_neg h1]
    by_cases h2 : y < x
    · simp [h2]
      omega
    · rw [if_neg h2]
      have hxy : x = y := by omega
      simp [hxy, h1]

theorem bytesLt_trans {a b c : List Nat} (h1 : bytesLt a b = true)
    (h2 : bytesLt b c = true) : bytesLt a c = true := by
  induction a generalizing b c with
  | nil =>
    cases b with
    | nil => simp [bytesLt] at h1
    | cons y bs =>
      cases c with
      | nil => simp [bytesLt] at h2
      | cons z cs => rfl
  | cons x as ih =>
    cases b with
    | nil => simp [bytesLt] at h1
    | cons y bs =>
      cases c with
      | nil => simp [bytesLt] at h2
      | cons z cs =>
        rw [bytesLt_cons_iff] at h1 h2 ⊢
        rcases h1 with hxy | ⟨hxy, hr1⟩ <;> rcases h2 with hyz | ⟨hyz, hr2⟩
        · left; omega
        · left; omega
        · left; omega
        · right; exact ⟨by omega, ih hr1 hr2⟩

theorem bytesLt_total {a b : List Nat} (h1 : bytesLt a b = false)
    (h2 : bytesLt b a = false) : a = b := by
  induction a generalizing b with
  | nil =>
    cases b with
    | nil => rfl
    | cons y bs => simp [bytesLt] at h1
  | cons x as ih =>
    cases b with
    | nil => simp [bytesLt] at h2
    | cons y bs =>
      have n1 : ¬ (x < y ∨ (x = y ∧ bytesLt as bs = true)) := by
        intro hcon
        have := (bytesLt_cons_iff x y as bs).mpr hcon
        rw [h1] at this
        exact absurd this (by simp)
      have n2 : ¬ (y < x ∨ (y = x ∧ bytesLt bs as = true)) := by
        intro hcon
        have := (bytesLt_cons_iff y x bs as).mpr hcon
        rw [h2] at this
        exact absurd this (by simp)
      have hxy : ¬ x < y := fun h => n1 (Or.inl h)
      have hyx : ¬ y < x := fun h => n2 (Or.inl h)
      have hx : x = y := by omega
      subst hx
      have r1 : bytesLt as bs = false := by
        cases hr : bytesLt as bs
        · rfl
        · exact (n1 (Or.inr ⟨rfl, hr⟩)).elim
      have r2 : bytesLt bs as = false := by
        cases hr : bytesLt bs as
        · rfl
        · exact (n2 (Or.inr ⟨rfl, hr⟩)).elim
      rw [ih r1 r2]

theorem bytesLt_asymm {a b : List Nat} (h : bytesLt a b = true) :
    bytesLt b a = false := by
  by_contra hc
  have h2 : bytesLt b a = true := by
    cases hb : bytesLt b a
    · exact absurd hb hc
    · rfl
  have := bytesLt_trans h h2
  rw [bytesLt_irrefl] at this
  exact absurd this (by simp)

theorem bytesLt_append_same (p x y : List Nat) :
    bytesLt (p ++ x) (p ++ y) = bytesLt x y := by
  induction p with
  | nil => rfl
  | cons a t ih => simp [bytesLt, ih]

theorem bytesLt_append_of_lt {a b : List Nat} (hlen : a.length = b.length)
    (h : bytesLt a b = true) (x y : List Nat) :
    bytesLt (a ++ x) (b ++ y) = true := by
  induction a generalizing b with
  | nil =>
    cases b with
    | nil => simp [bytesLt] at h
    | cons _ _ => simp at hlen
  | cons p as ih =>
    cases b with
    | nil => simp at hlen
    | cons q bs =>
      rw [bytesLt_cons_iff] at h
      simp only [List.cons_append]
      rw [bytesLt_cons_iff]
      rcases h with h | ⟨heq, hr⟩
      · exact Or.inl h
      · exact Or.inr ⟨heq, ih (by simpa using hlen) hr⟩

theorem bytesLe_append_cases {a b x y : List Nat} (hlen : a.length = b.length)
    (h : bytesLe (a ++ x) (b ++ y) = true) : a = b ∨ bytesLt a b = true := by
  by_cases hab : a = b
  · exact Or.inl hab
  · right
    by_contra hc
    have hfa : bytesLt a b = false := by
      cases hb : bytesLt a b
      · rfl
      · exact absurd hb hc
    have hba : bytesLt b a = true := by
      cases hb : bytesLt b a
      · exact absurd (bytesLt_total hfa hb) hab
      · rfl
    have hlt := bytesLt_append_of_lt hlen.symm hba y x
    simp only [bytesLe, Bool.or_eq_true, decide_eq_true_eq] at h
    rcases h with h | h
    · rw [bytesLt_asymm hlt] at h
      exact absurd h (by simp)
    · have : b ++ y = a ++ x := h.symm
      rw [this, bytesLt_irrefl] at hlt
      exact absurd hlt (by simp)

end Store

namespace Store

/-- Lookup in the physical table, first entry with an equal key. -/
def mapLookup (k : List Nat) : List (List Nat × List Nat) → Option (List Nat)
  | [] => none
  | (a, b) :: t => if a = k then some b else mapLookup k t

/-- Order-preserving insertion, replacing an existing entry with the same
key, the BTreeMap insert. -/
def mapInsert (k v : List Nat) : List (List Nat × List Nat) → List (List Nat × List Nat)
  | [] => [(k, v)]
  | (a, b) :: t =>
    if bytesLt k a then (k, v) :: (a, b) :: t
    else if a = k then (k, v) :: t
    else (a, b) :: mapInsert k v t

/-- Deletion of the entry with the given key, the BTreeMap remove. -/
def mapRemove (k : List Nat) : List (List Nat × List Nat) → List (List Nat × List Nat)
  | [] => []
  | (a, b) :: t => if a = k then mapRemove k t else (a, b) :: mapRemove k t

/-- The physical table is sorted strictly by key. -/
def entriesSorted (l : List (List Nat × List Nat)) : Prop :=
  l.Pairwise (fun e1 e2 => bytesLt e1.1 e2.1 = true)

theorem mapLookup_insert_self (k v : List Nat) (l : List (List Nat × List Nat)) :
    mapLookup k (mapInsert k v l) = some v := by
  induction l with
  | nil => simp [mapInsert, mapLookup]
  | cons e t ih =>
    obtain ⟨a, b⟩ := e
    simp only [mapInsert]
    by_cases h1 : bytesLt k a
    · simp [h1, mapLookup]
    · rw [if_neg (by simp [h1])]
      by_cases h2 : a = k
      · simp [h2, mapLookup]
      · rw [if_neg h2]
        simp only [mapLookup, if_neg h2]
        exact ih

theorem mapLookup_insert_ne (k k2 v : List Nat) (l : List (List Nat × List Nat))
    (hne : k2 ≠ k) : mapLookup k2 (mapInsert k v l) = mapLookup k2 l := by
  have hkk : ¬ (k = k2) := fun h => hne h.symm
  induction l with
  | nil =>
    simp only [mapInsert, mapLookup]
    rw [if_neg hkk]
  | cons e t ih =>
    obtain ⟨a, b⟩ := e
    simp only [mapInsert]
    by_cases h1 : bytesLt k a
    · rw [if_pos h1]
      simp only [mapLookup, if_neg hkk]
    · rw [if_neg (by simp [h1])]
      by_cases h2 : a = k
      · rw [if_pos h2]
        simp only [mapLookup, if_neg hkk, if_neg (h2 ▸ hkk)]
      · rw [if_neg h2]
        simp only [mapLookup]
        by_cases h3 : a = k2
        · rw [if_pos h3, if_pos h3]
        · rw [if_neg h3, if_neg h3]
          exact ih

theorem mapLookup_remove_self (k : List Nat) (l : List (List Nat × List Nat)) :
    mapLookup k (mapRemove k l) = none := by
  induction l with
  | nil => rfl
  | cons e t ih =>
    obtain ⟨a, b⟩ := e
    simp only [mapRemove]
    by_cases h : a = k
    · rw [if_pos h]
      exact ih
    · rw [if_neg h]
      simp only [mapLookup, if_neg h]
      exact ih

theorem mapLookup_remove_ne (k k2 : List Nat) (l : List (List Nat × List Nat))
    (hne : k2 ≠ k) : mapLookup k2 (mapRemove k l) = mapLookup k2 l := by
  induction l with
  | nil => rfl
  | cons e t ih =>
    obtain ⟨a, b⟩ := e
    simp only [mapRemove]
    by_cases h : a = k
    · rw [if_pos h]
      simp only [mapLookup, if_neg (show ¬ a = k2 from h ▸ fun hc => hne hc.symm)]
      exact ih
    · rw [if_neg h]
      simp only [mapLookup]
      by_cases h2 : a = k2
      · rw [if_pos h2, if_pos h2]
      · rw [if_neg h2, if_neg h2]
        exact ih

theorem mem_mapInsert {k v : List Nat} {l : List (List Nat × List Nat)}
    {x : List Nat × List Nat} (h : x ∈ mapInsert k v l) : x = (k, v) ∨ x ∈ l := by
  induction l with
  | nil => simpa [mapInsert] using h
  | cons e t ih =>
    obtain ⟨a, b⟩ := e
    simp only [mapInsert] at h
    by_cases h1 : bytesLt k a
    · rw [if_pos h1] at h
      simp only [List.mem_cons] at h
      rcases h with h | h | h
      · exact Or.inl h
      · exact Or.inr (by simp [h])
      · exact Or.inr (by simp [h])
    · rw [if_neg (by simp [h1])] at h
      by_cases h2 : a = k
      · rw [if_pos h2] at h
        simp only [List.mem_cons] at h
        rcases h with h | h
        · exact Or.inl h
        · exact Or.inr (by simp [h])
      · rw [if_neg h2] at h
        simp only [List.mem_cons] at h
        rcases h with h | h
        · exact Or.inr (by simp [h])
        · rcases ih h with h3 | h3
          · exact Or.inl h3
          · exact Or.inr (by simp [h3])

theorem mem_mapRemove {k : List Nat} {l : List (List Nat × List Nat)}
    {x : List Nat × List Nat} (h : x ∈ mapRemove k l) : x ∈ l := by
  induction l with
  | nil => simp [mapRemove] at h
  | cons e t ih =>
    obtain ⟨a, b⟩ := e
    simp only [mapRemove] at h
    by_cases h1 : a = k
    · rw [if_pos h1] at h
      exact List.mem_cons_of_mem _ (ih h)
    · rw [if_neg h1] at h
      simp only [List.mem_cons] at h
      rcases h with h | h
      · exact List.mem_cons.mpr (Or.inl h)
      · exact List.mem_cons_of_mem _ (ih h)

theorem entriesSorted_insert {k v : List Nat} {l : List (List Nat × List Nat)}
    (hs : entriesSorted l) : entriesSorted (mapInsert k v l) := by
  induction l with
  | nil => simp [mapInsert, entriesSorted]
  | cons e t ih =>
    obtain ⟨a, b⟩ := e
    simp only [entriesSorted, List.pairwise_cons] at hs
    obtain ⟨he, ht⟩ := hs
    simp only [mapInsert]
    by_cases h1 : bytesLt k a
    · rw [if_pos h1]
      refine List.Pairwise.cons ?_ (List.Pairwise.cons he ht)
      intro x hx
      simp only [List.mem_cons] at hx
      rcases hx with hx | hx
      · rw [hx]; exact h1
      · exact bytesLt_trans h1 (he x hx)
    · rw [if_neg (by simp [h1])]
      by_cases h2 : a = k
      · rw [if_pos h2]
        exact List.Pairwise.cons (fun x hx => h2 ▸ he x hx) ht
      · rw [if_neg h2]
        refine List.Pairwise.cons ?_ (ih ht)
        intro x hx
        rcases mem_mapInsert hx with h3 | h3
        · rw [h3]
          cases hlt : bytesLt a k
          · exact absurd (bytesLt_total (by simpa using h1) hlt).symm h2
          · rfl
        · exact he x h3

theorem entriesSorted_remove {k : List Nat} {l : List (List Nat × List Nat)}
    (hs : entriesSorted l) : entriesSorted (mapRemove k l) := by
  induction l with
  | nil => simpa [mapRemove] using hs
  | cons e t ih =>
    obtain ⟨a, b⟩ := e
    simp only [entriesSorted, List.pairwise_cons] at hs
    obtain ⟨he, ht⟩ := hs
    simp only [mapRemove]
    by_cases h1 : a = k
    · rw [if_pos h1]
      exact ih ht
    · rw [if_neg h1]
      exact List.Pairwise.cons (fun x hx => he x (mem_mapRemove hx)) (ih ht)

theorem mem_of_mapLookup {k v : List Nat} {l : List (List Nat × List Nat)}
    (h : mapLookup k l = some v) : (k, v) ∈ l := by
  induction l with
  | nil => simp [mapLookup] at h
  | cons e t ih =>
    obtain ⟨a, b⟩ := e
    simp only [mapLookup] at h
    by_cases h1 : a = k
    · rw [if_pos h1] at h
      injection h with h
      subst h1
      rw [h]
      exact List.mem_cons_self _ _
    · rw [if_neg h1] at h
      exact List.mem_cons_of_mem _ (ih h)

theorem mapLookup_of_mem_sorted {k v : List Nat} {l : List (List Nat × List Nat)}
    (hs : entriesSorted l) (h : (k, v) ∈ l) : mapLookup k l = some v := by
  induction l with
  | nil => simp at h
  | cons e t ih =>
    obtain ⟨a, b⟩ := e
    simp only [entriesSorted, List.pairwise_cons] at hs
    obtain ⟨he, ht⟩ := hs
    simp only [List.mem_cons] at h
    rcases h with h | h
    · obtain ⟨h1, h2⟩ := Prod.mk.injEq .. ▸ h.symm
      simp only [mapLookup]
      rw [if_pos h1, h2]
    · have hne : a ≠ k := by
        intro hc
        have := he _ h
        simp only at this
        rw [hc] at this
        rw [bytesLt_irrefl] at this
        exact absurd this (by simp)
      simp only [mapLookup, if_neg hne]
      exact ih ht h

end Store

namespace Store

/-- Decode errors of the byte-level decoder. -/
inductive DecodeErr where
  | bufferUnderflow : DecodeErr
  | invalidPayloadByte : DecodeErr
  | trailingBytes : DecodeErr
  | maxDepthExceeded : DecodeErr
  | unexpectedTypeId : DecodeErr
deriving DecidableEq, Repr

/-- Fuel-indexed writer of the sbor size header; the fuel only drives the
structural recursion and is always sufficient at the call site. -/
def sizeEncAux : Nat → Nat → List Nat
  | 0, _ => []
  | fuel + 1, n => if n < 128 then [n] else (n % 128 + 128) :: sizeEncAux fuel (n / 128)

/-- Modelled from the spec: the sbor size header, seven value bits per
byte, least significant group first, high bit as continuation; the sbor
encoder sources are not under src. -/
def sizeEnc (n : Nat) : List Nat := sizeEncAux (n + 1) n

/-- Modelled from the spec: the matching size reader. -/
def readSize : List Nat → Except DecodeErr (Nat × List Nat)
  | [] => .error .bufferUnderflow
  | b :: rest =>
    if b < 128 then .ok (b, rest)
    else
      match readSize rest with
      | .ok (m, r) => .ok (b % 128 + 128 * m, r)
      | .error e => .error e

theorem readSize_sizeEncAux (fuel n : Nat) (hf : n < fuel) (rest : List Nat) :
    readSize (sizeEncAux fuel n ++ rest) = .ok (n, rest) := by
  induction fuel generalizing n with
  | zero => omega
  | succ fuel ih =>
    by_cases h : n < 128
    · rw [sizeEncAux, if_pos h]
      simp [readSize, h]
    · rw [sizeEncAux, if_neg h]
      simp only [List.cons_append, readSize, List.append_eq]
      rw [if_neg (by omega)]
      rw [ih (n / 128) (by omega)]
      have heq : (n % 128 + 128) % 128 + 128 * (n / 128) = n := by omega
      show Except.ok ((n % 128 + 128) % 128 + 128 * (n / 128), rest) = Except.ok (n, rest)
      rw [heq]

theorem readSize_sizeEnc (n : Nat) (rest : List Nat) :
    readSize (sizeEnc n ++ rest) = .ok (n, rest) :=
  readSize_sizeEncAux (n + 1) n (Nat.lt_succ_self n) rest

theorem readSize_append {bs : List Nat} {n : Nat} {r : List Nat}
    (h : readSize bs = .ok (n, r)) (ex : List Nat) :
    readSize (bs ++ ex) = .ok (n, r ++ ex) := by
  induction bs generalizing n r with
  | nil => simp [readSize] at h
  | cons b t ih =>
    simp only [readSize, List.cons_append, List.append_eq] at h ⊢
    by_cases hb : b < 128
    · rw [if_pos hb] at h ⊢
      injection h with h
      obtain ⟨h1, h2⟩ := Prod.mk.injEq .. ▸ h
      rw [← h1, ← h2]
    · rw [if_neg hb] at h ⊢
      cases hr : readSize t with
      | ok p =>
        obtain ⟨m, rr⟩ := p
        rw [hr] at h
        simp only at h
        injection h with h
        obtain ⟨h1, h2⟩ := Prod.mk.injEq .. ▸ h
        rw [ih hr]
        simp [← h1, ← h2]
      | error e =>
        rw [hr] at h
        simp at h

/-- Modelled from the spec: the scrypto encoding of a raw byte vector as
the in-memory database stores it (payload byte 0x5c, array value kind
0x20, u8 element kind 0x07, size, bytes). -/
def encodeValue (v : List Nat) : List Nat := 92 :: 32 :: 7 :: (sizeEnc v.length ++ v)

/-- Modelled from the spec: the matching decoder; the none result stands
for the branch where the Rust code panics on a malformed stored value,
which the theorems rule out by hypothesis. -/
def decodeValue (bs : List Nat) : Option (List Nat) :=
  match bs with
  | 92 :: 32 :: 7 :: rest =>
    match readSize rest with
    | .ok (n, body) => if body.length = n then some body else none
    | .error _ => none
  | _ => none

theorem decodeValue_encodeValue (v : List Nat) :
    decodeValue (encodeValue v) = some v := by
  simp only [encodeValue, decodeValue]
  rw [readSize_sizeEnc]
  simp

/-- Node id length in bytes, from the spec wire format section. -/
def nodeIdLength : Nat := 30

/-- Modelled from the spec: the physical key is the concatenation of the
node id bytes, the module id byte and the substate key bytes. -/
def encodeSubstateId (n : List Nat) (m : Nat) (k : List Nat) : List Nat :=
  n ++ m :: k

/-- Modelled from the spec: recover the (node, module, key) triple from a
physical key. -/
def decodeSubstateId (pk : List Nat) : Option (List Nat × Nat × List Nat) :=
  match pk.drop nodeIdLength with
  | m :: rest => some (pk.take nodeIdLength, m, rest)
  | [] => none

theorem decodeSubstateId_encodeSubstateId {n : List Nat} (m : Nat) (k : List Nat)
    (hn : n.length = nodeIdLength) :
    decodeSubstateId (encodeSubstateId n m k) = some (n, m, k) := by
  simp only [decodeSubstateId, encodeSubstateId, ← hn, List.drop_left, List.take_left]

theorem encodeSubstateId_inj {n1 n2 : List Nat} {m1 m2 : Nat} {k1 k2 : List Nat}
    (h1 : n1.length = nodeIdLength) (h2 : n2.length = nodeIdLength)
    (h : encodeSubstateId n1 m1 k1 = encodeSubstateId n2 m2 k2) :
    n1 = n2 ∧ m1 = m2 ∧ k1 = k2 := by
  obtain ⟨hn, hmk⟩ := List.append_inj h (h1.trans h2.symm)
  injection hmk with hm hk
  exact ⟨hn, hm, hk⟩

/-- The state change requested for one substate, from the stores
interface. -/
inductive StateUpdate where
  | set (value : List Nat) : StateUpdate
  | delete : StateUpdate
deriving DecidableEq, Repr

/-- Reading one substate: physical lookup followed by the value decoding;
mirrors get_substate of InMemorySubstateDatabase. -/
def get_substate (db : List (List Nat × List Nat)) (n : List Nat) (m : Nat)
    (k : List Nat) : Option (List Nat) :=
  (mapLookup (encodeSubstateId n m k) db).bind decodeValue

/-- Applying one state change to the physical table. -/
def applyChange (db : List (List Nat × List Nat))
    (u : (List Nat × Nat × List Nat) × StateUpdate) : List (List Nat × List Nat) :=
  match u with
  | ((n, m, k), .set v) => mapInsert (encodeSubstateId n m k) (encodeValue v) db
  | ((n, m, k), .delete) => mapRemove (encodeSubstateId n m k) db

/-- Committing an update set: iterate the changes in order; mirrors commit
of InMemorySubstateDatabase. -/
def commit (db : List (List Nat × List Nat))
    (updates : List ((List Nat × Nat × List Nat) × StateUpdate)) :
    List (List Nat × List Nat) :=
  updates.foldl applyChange db

end Store

namespace Store

theorem commit_cons (db : List (List Nat × List Nat))
    (u : (List Nat × Nat × List Nat) × StateUpdate)
    (rest : List ((List Nat × Nat × List Nat) × StateUpdate)) :
    commit db (u :: rest) = commit (applyChange db u) rest := rfl

theorem applyChange_lookup_other (db : List (List Nat × List Nat))
    (u : (List Nat × Nat × List Nat) × StateUpdate) (q : List Nat)
    (hne : encodeSubstateId u.1.1 u.1.2.1 u.1.2.2 ≠ q) :
    mapLookup q (applyChange db u) = mapLookup q db := by
  obtain ⟨⟨n, m, k⟩, ch⟩ := u
  cases ch with
  | set v => exact mapLookup_insert_ne _ _ _ _ (fun h => hne h.symm)
  | delete => exact mapLookup_remove_ne _ _ _ (fun h => hne h.symm)

/-- C4. After commit(updates) on the in-memory substate database, every
triple set to v in the update set reads back as some v, every deleted
triple reads back as none, and every triple not mentioned in the update
set reads back exactly as before the commit. Updates are keyed by triple,
hence the pairwise distinctness hypothesis, and node ids have the fixed
wire length. -/
theorem memory_db_commit_get_spec
    (db : List (List Nat × List Nat))
    (updates : List ((List Nat × Nat × List Nat) × StateUpdate))
    (n : List Nat) (m : Nat) (k : List Nat)
    (hnodes : ∀ u ∈ updates, u.1.1.length = nodeIdLength)
    (hnodup : (updates.map Prod.fst).Nodup)
    (hq : n.length = nodeIdLength) :
    (∀ v, ((n, m, k), StateUpdate.set v) ∈ updates →
      get_substate (commit db updates) n m k = some v) ∧
    (((n, m, k), StateUpdate.delete) ∈ updates →
      get_substate (commit db updates) n m k = none) ∧
    ((n, m, k) ∉ updates.map Prod.fst →
      get_substate (commit db updates) n m k = get_substate db n m k) := by
  induction updates generalizing db with
  | nil =>
    refine ⟨by simp, by simp, fun _ => rfl⟩
  | cons u rest ih =>
    simp only [List.map_cons, List.nodup_cons] at hnodup
    obtain ⟨hhead, htail⟩ := hnodup
    have hnodes2 : ∀ w ∈ rest, w.1.1.length = nodeIdLength :=
      fun w hw => hnodes w (List.mem_cons_of_mem _ hw)
    have hulen : u.1.1.length = nodeIdLength := hnodes u (List.mem_cons_self ..)
    have hne_of_fst : u.1 ≠ (n, m, k) →
        mapLookup (encodeSubstateId n m k) (applyChange db u)
          = mapLookup (encodeSubstateId n m k) db := by
      intro hfst
      apply applyChange_lookup_other
      intro hc
      obtain ⟨e1, e2, e3⟩ := encodeSubstateId_inj hulen hq hc
      apply hfst
      obtain ⟨⟨a, b, c⟩, ch⟩ := u
      simp only at e1 e2 e3
      simp [e1, e2, e3]
    refine ⟨?_, ?_, ?_⟩
    · intro v hv
      rcases List.mem_cons.mp hv with heq | hin
      · subst heq
        rw [commit_cons, ((ih _ hnodes2 htail).2.2 (by simpa using hhead))]
        simp [get_substate, applyChange, mapLookup_insert_self,
          decodeValue_encodeValue]
      · rw [commit_cons]
        exact (ih (applyChange db u) hnodes2 htail).1 v hin
    · intro hv
      rcases List.mem_cons.mp hv with heq | hin
      · subst heq
        rw [commit_cons, ((ih _ hnodes2 htail).2.2 (by simpa using hhead))]
        simp [get_substate, applyChange, mapLookup_remove_self]
      · rw [commit_cons]
        exact (ih (applyChange db u) hnodes2 htail).2.1 hin
    · intro hv
      simp only [List.map_cons, List.mem_cons, not_or] at hv
      obtain ⟨hv1, hv2⟩ := hv
      rw [commit_cons, ((ih (applyChange db u) hnodes2 htail).2.2 hv2)]
      simp only [get_substate]
      rw [hne_of_fst (fun hc => hv1 hc.symm)]

/-- The node id used by the commit witness. -/
def wNode : List Nat := List.replicate 30 0

/-- The update list used by the commit witness: one set, one delete. -/
def wUpdates : List ((List Nat × Nat × List Nat) × StateUpdate) :=
  [((wNode, 5, [1]), StateUpdate.set [7]), ((wNode, 5, [2]), StateUpdate.delete)]

/-- Witness for the commit and read back law at a concrete database and
update list. -/
theorem memory_db_commit_get_spec_witness :
    get_substate (commit [] wUpdates) wNode 5 [1] = some [7] ∧
    get_substate (commit [] wUpdates) wNode 5 [2] = none ∧
    get_substate (commit [] wUpdates) wNode 5 [3] = get_substate [] wNode 5 [3] := by
  have h1 := memory_db_commit_get_spec [] wUpdates wNode 5 [1]
    (by decide) (by decide) (by decide)
  have h2 := memory_db_commit_get_spec [] wUpdates wNode 5 [2]
    (by decide) (by decide) (by decide)
  have h3 := memory_db_commit_get_spec [] wUpdates wNode 5 [3]
    (by decide) (by decide) (by decide)
  exact ⟨h1.1 [7] (by decide), h2.2.1 (by decide), h3.2.2 (by decide)⟩

end Store

namespace Store

/-- The least substate key; modelled from the spec as the empty byte
string. -/
def minKey : List Nat := []

/-- Bound on substate key length; the spec calls keys small ordered
bytes. -/
def maxKeyLen : Nat := 64

/-- The greatest substate key; modelled from the spec as the maximal
byte string of the bounded key length. -/
def maxKey : List Nat := List.replicate maxKeyLen 255

theorem bytesLe_nil (k : List Nat) : bytesLe [] k = true := by
  cases k with
  | nil => simp [bytesLe]
  | cons b t => simp [bytesLe, bytesLt]

theorem bytesLe_cons_same (x : Nat) (a b : List Nat) :
    bytesLe (x :: a) (x :: b) = bytesLe a b := by
  simp only [bytesLe, bytesLt]
  rw [if_neg (lt_irrefl x), if_neg (lt_irrefl x)]
  congr 1
  exact decide_eq_decide.mpr (by simp)

theorem bytesLe_replicate (k : List Nat) (L : Nat) (hlen : k.length ≤ L)
    (hb : ∀ b ∈ k, b < 256) : bytesLe k (List.replicate L 255) = true := by
  induction k generalizing L with
  | nil => exact bytesLe_nil _
  | cons b t ih =>
    cases L with
    | zero => simp at hlen
    | succ L =>
      simp only [List.replicate]
      have hbb : b < 256 := hb b (by simp)
      by_cases hlt : b < 255
      · have : bytesLt (b :: t) (255 :: List.replicate L 255) = true := by
          rw [bytesLt_cons_iff]
          exact Or.inl hlt
        simp [bytesLe, this]
      · have hbeq : b = 255 := by omega
        subst hbeq
        rw [bytesLe_cons_same]
        exact ih L (by simpa using hlen) (fun x hx => hb x (by simp [hx]))

theorem bytesLe_append_same (p x y : List Nat) :
    bytesLe (p ++ x) (p ++ y) = bytesLe x y := by
  simp only [bytesLe, bytesLt_append_same]
  congr 1
  simp

/-- One result row of list_substates: the substate id is decoded back and
the stored value is unwrapped; the none case stands for the panic branches
of the Rust code, ruled out by the well-formedness hypothesis. -/
def decodeEntry (e : List Nat × List Nat) : Option (List Nat × List Nat) :=
  match decodeSubstateId e.1, decodeValue e.2 with
  | some (_, _, k), some v => some (k, v)
  | _, _ => none

/-- Range scan and decode, mirroring list_substates of
InMemorySubstateDatabase: every physical entry between the minimal and the
maximal key of the module, in table order. -/
def list_substates (db : List (List Nat × List Nat)) (n : List Nat) (m : Nat) :
    List (List Nat × List Nat) :=
  (db.filter (fun e => bytesLe (encodeSubstateId n m minKey) e.1
      && bytesLe e.1 (encodeSubstateId n m maxKey))).filterMap decodeEntry

/-- A physical entry as produced by commits: an encoded substate id of a
well-sized node and key together with a wrapped value. -/
def wellFormedEntry (e : List Nat × List Nat) : Prop :=
  ∃ n m k v, e.1 = encodeSubstateId n m k ∧ n.length = nodeIdLength ∧
    k.length ≤ maxKeyLen ∧ (∀ b ∈ k, b < 256) ∧ e.2 = encodeValue v

/-- A well-formed database: sorted physical table of well-formed
entries. -/
def wellFormedDb (db : List (List Nat × List Nat)) : Prop :=
  entriesSorted db ∧ ∀ e ∈ db, wellFormedEntry e

theorem inRange_iff {n2 : List Nat} {m2 : Nat} {k2 : List Nat}
    (n : List Nat) (m : Nat)
    (hq : n.length = nodeIdLength) (hn2 : n2.length = nodeIdLength)
    (hk2 : k2.length ≤ maxKeyLen) (hb2 : ∀ b ∈ k2, b < 256) :
    (bytesLe (encodeSubstateId n m minKey) (encodeSubstateId n2 m2 k2)
      && bytesLe (encodeSubstateId n2 m2 k2) (encodeSubstateId n m maxKey)) = true
      ↔ (n2 = n ∧ m2 = m) := by
  have hplen : (n ++ [m]).length = (n2 ++ [m2]).length := by
    simp [hq, hn2]
  constructor
  · intro h
    simp only [Bool.and_eq_true] at h
    obtain ⟨hlo, hhi⟩ := h
    have e1 : encodeSubstateId n m minKey = (n ++ [m]) ++ minKey := by
      simp [encodeSubstateId]
    have e2 : encodeSubstateId n2 m2 k2 = (n2 ++ [m2]) ++ k2 := by
      simp [encodeSubstateId]
    have e3 : encodeSubstateId n m maxKey = (n ++ [m]) ++ maxKey := by
      simp [encodeSubstateId]
    rw [e1, e2] at hlo
    rw [e2, e3] at hhi
    rcases bytesLe_append_cases hplen hlo with hp | hp
    · obtain ⟨hn, hm⟩ := List.append_inj hp (by simp [hq, hn2])
      injection hm with hm
      exact ⟨hn.symm, hm.symm⟩
    · rcases bytesLe_append_cases hplen.symm hhi with hp2 | hp2
      · obtain ⟨hn, hm⟩ := List.append_inj hp2 (by simp [hq, hn2])
        injection hm with hm
        exact ⟨hn, hm⟩
      · rw [bytesLt_asymm hp] at hp2
        exact absurd hp2 (by simp)
  · rintro ⟨rfl, rfl⟩
    simp only [Bool.and_eq_true]
    constructor
    · have e1 : encodeSubstateId n2 m2 minKey = (n2 ++ [m2]) ++ minKey := by
        simp [encodeSubstateId]
      have e2 : encodeSubstateId n2 m2 k2 = (n2 ++ [m2]) ++ k2 := by
        simp [encodeSubstateId]
      rw [e1, e2, bytesLe_append_same]
      exact bytesLe_nil _
    · have e2 : encodeSubstateId n2 m2 k2 = (n2 ++ [m2]) ++ k2 := by
        simp [encodeSubstateId]
      have e3 : encodeSubstateId n2 m2 maxKey = (n2 ++ [m2]) ++ maxKey := by
        simp [encodeSubstateId]
      rw [e2, e3, bytesLe_append_same]
      exact bytesLe_replicate k2 maxKeyLen hk2 hb2

theorem pairwise_filterMap_of {α β : Type} (f : α → Option β)
    {S : α → α → Prop} {R : β → β → Prop} {l : List α}
    (hs : List.Pairwise S l)
    (h : ∀ a ∈ l, ∀ b ∈ l, S a b → ∀ x y, f a = some x → f b = some y → R x y) :
    List.Pairwise R (l.filterMap f) := by
  induction l with
  | nil => simp
  | cons a t ih =>
    simp only [List.pairwise_cons] at hs
    obtain ⟨ha, ht⟩ := hs
    have ihh := ih ht (fun p hp q hq hpq x y hx hy =>
      h p (List.mem_cons_of_mem _ hp) q (List.mem_cons_of_mem _ hq) hpq x y hx hy)
    simp only [List.filterMap_cons]
    cases hfa : f a with
    | none => exact ihh
    | some x =>
      refine List.Pairwise.cons ?_ ihh
      intro y hy
      obtain ⟨b, hb, hfb⟩ := List.mem_filterMap.mp hy
      exact h a (List.mem_cons_self ..) b (List.mem_cons_of_mem _ hb)
        (ha b hb) x y hfa hfb

end Store

namespace Store

theorem wf_entry_data {db : List (List Nat × List Nat)} {n : List Nat} {m : Nat}
    {e : List Nat × List Nat}
    (hwfe : ∀ e2 ∈ db, wellFormedEntry e2) (hq : n.length = nodeIdLength)
    (he : e ∈ db.filter (fun e2 => bytesLe (encodeSubstateId n m minKey) e2.1
      && bytesLe e2.1 (encodeSubstateId n m maxKey))) :
    ∃ k v, e = (encodeSubstateId n m k, encodeValue v) ∧ k.length ≤ maxKeyLen ∧
      (∀ b ∈ k, b < 256) ∧ decodeEntry e = some (k, v) := by
  obtain ⟨hedb, hpred⟩ := List.mem_filter.mp he
  obtain ⟨n2, m2, k2, v2, he1, hlen2, hklen, hkb, he2⟩ := hwfe e hedb
  rw [he1] at hpred
  obtain ⟨rfl, rfl⟩ := (inRange_iff n m hq hlen2 hklen hkb).mp hpred
  refine ⟨k2, v2, ?_, hklen, hkb, ?_⟩
  · rw [← he1, ← he2]
  · simp only [decodeEntry, he1, he2,
      decodeSubstateId_encodeSubstateId _ k2 hlen2, decodeValue_encodeValue]

/-- C5. list_substates on a well-formed database yields rows whose keys are
strictly ascending in the lexicographic order, a row (k, v) appears exactly
when the physical table stores the wrapped v under the encoded id of
(node, module, k), and every listed row reads back through get_substate. -/
theorem memory_db_list_spec (db : List (List Nat × List Nat)) (n : List Nat)
    (m : Nat) (hwf : wellFormedDb db) (hq : n.length = nodeIdLength) :
    List.Pairwise (fun r1 r2 => bytesLt r1.1 r2.1 = true) (list_substates db n m) ∧
    (∀ k v, (k, v) ∈ list_substates db n m ↔
      mapLookup (encodeSubstateId n m k) db = some (encodeValue v)) ∧
    (∀ k v, (k, v) ∈ list_substates db n m → get_substate db n m k = some v) := by
  obtain ⟨hsorted, hwfe⟩ := hwf
  have hmem : ∀ k v, (k, v) ∈ list_substates db n m ↔
      mapLookup (encodeSubstateId n m k) db = some (encodeValue v) := by
    intro k v
    constructor
    · intro h
      obtain ⟨e, heE, hdec⟩ := List.mem_filterMap.mp h
      obtain ⟨k2, v2, hee, hklen, hkb, hdec2⟩ := wf_entry_data hwfe hq heE
      rw [hdec2] at hdec
      injection hdec with hdec
      obtain ⟨hk, hv⟩ := Prod.mk.injEq .. ▸ hdec
      subst hk
      subst hv
      apply mapLookup_of_mem_sorted hsorted
      rw [← hee]
      exact (List.mem_filter.mp heE).1
    · intro h
      have hmem2 := mem_of_mapLookup h
      obtain ⟨n2, m2, k2, v2, he1, hlen2, hklen, hkb, he2⟩ :=
        hwfe _ hmem2
      obtain ⟨hn2, hm2, hk2⟩ := encodeSubstateId_inj hq hlen2 he1
      have hklenk : k.length ≤ maxKeyLen := by rw [hk2]; exact hklen
      have hkbk : ∀ b ∈ k, b < 256 := by rw [hk2]; exact hkb
      apply List.mem_filterMap.mpr
      refine ⟨(encodeSubstateId n m k, encodeValue v), ?_, ?_⟩
      · apply List.mem_filter.mpr
        refine ⟨hmem2, ?_⟩
        exact (inRange_iff n m hq hq hklenk hkbk).mpr ⟨rfl, rfl⟩
      · simp only [decodeEntry, decodeSubstateId_encodeSubstateId _ k hq,
          decodeValue_encodeValue]
  refine ⟨?_, hmem, ?_⟩
  · apply pairwise_filterMap_of decodeEntry (List.Pairwise.filter _ hsorted)
    intro a ha b hb hab x y hx hy
    obtain ⟨ka, va, haa, _, _, hdeca⟩ := wf_entry_data hwfe hq ha
    obtain ⟨kb, vb, hbb, _, _, hdecb⟩ := wf_entry_data hwfe hq hb
    rw [hdeca] at hx
    rw [hdecb] at hy
    injection hx with hx
    injection hy with hy
    subst hx
    subst hy
    rw [haa, hbb] at hab
    simp only [encodeSubstateId] at hab
    have eap : n ++ m :: ka = (n ++ [m]) ++ ka := by simp
    have ebp : n ++ m :: kb = (n ++ [m]) ++ kb := by simp
    rw [eap, ebp, bytesLt_append_same] at hab
    simpa using hab
  · intro k v hkv
    have hl := (hmem k v).mp hkv
    simp only [get_substate, hl, Option.some_bind, decodeValue_encodeValue]

end Store

namespace Store

/-- The database used by the list witness: two entries under module 5 of
the witness node and one under module 6. -/
def wDb : List (List Nat × List Nat) :=
  [(encodeSubstateId wNode 5 [1], encodeValue [7]),
   (encodeSubstateId wNode 5 [2], encodeValue [9]),
   (encodeSubstateId wNode 6 [0], encodeValue [4])]

/-- Witness for the list law at a concrete database. -/
theorem memory_db_list_spec_witness :
    List.Pairwise (fun r1 r2 => bytesLt r1.1 r2.1 = true) (list_substates wDb wNode 5) ∧
    (([1], [7]) ∈ list_substates wDb wNode 5) ∧
    get_substate wDb wNode 5 [1] = some [7] := by
  have hwf : wellFormedDb wDb := by
    constructor
    · show List.Pairwise (fun e1 e2 => bytesLt e1.1 e2.1 = true) wDb
      decide
    · intro e he
      simp only [wDb, List.mem_cons, List.not_mem_nil, or_false] at he
      rcases he with rfl | rfl | rfl
      · exact ⟨wNode, 5, [1], [7], rfl, by decide, by decide, by decide, rfl⟩
      · exact ⟨wNode, 5, [2], [9], rfl, by decide, by decide, by decide, rfl⟩
      · exact ⟨wNode, 6, [0], [4], rfl, by decide, by decide, by decide, rfl⟩
  have h := memory_db_list_spec wDb wNode 5 hwf (by decide)
  have hm : ([1], [7]) ∈ list_substates wDb wNode 5 :=
    (h.2.1 [1] [7]).mpr (by decide)
  exact ⟨h.1, hm, h.2.2 [1] [7] hm⟩

end Store

deriving instance DecidableEq for Except

namespace Resource

/-- Errors of the liquid resource containers. -/
inductive ResourceError where
  | insufficientBalance : ResourceError
  | invalidTakeAmount : ResourceError
deriving DecidableEq, Repr

/-- Error of the resource definition checks. -/
inductive ResourceDefError where
  | invalidAmount : ResourceDefError
deriving DecidableEq, Repr

/-- LiquidFungibleResource::put; the Decimal balance is modelled as the
signed count of subunits, ten to the eighteenth per whole unit. -/
def put (balance other : Int) : Int := balance + other

/-- LiquidFungibleResource::take_by_amount; returns the new balance and
the taken amount. -/
def take_by_amount (balance amount : Int) : Except ResourceError (Int × Int) :=
  if balance < amount then .error .insufficientBalance
  else .ok (balance - amount, amount)

/-- LiquidFungibleResource::take_all, written as the take of the full
balance as in the source. -/
def take_all (balance : Int) : Except ResourceError (Int × Int) :=
  take_by_amount balance balance

/-- ResourceDef::check_amount: the error fires only when the amount is
non-negative and its subunits are not a multiple of ten to the power of
eighteen minus the divisibility. The Rust remainder agrees with the
mathematical one here because the short-circuit guard makes the dividend
non-negative. -/
def check_amount (divisibility : Nat) (amount : Int) : Except ResourceDefError Unit :=
  if (!decide (amount < 0))
      && decide (amount % (10 : Int) ^ (18 - divisibility) ≠ 0) then
    .error .invalidAmount
  else .ok ()

/-- Modelled composition per the claim sources: a vault take checks the
amount against the divisibility of the resource and then takes from the
container; the composing vault code is not under src. -/
def vault_take (divisibility : Nat) (balance amount : Int) :
    Except ResourceError (Int × Int) :=
  match check_amount divisibility amount with
  | .error _ => .error .invalidTakeAmount
  | .ok _ => take_by_amount balance amount

/-- C2 evaluation at the failing input: with divisibility 2, taking the
negative amount of minus three thousandths passes check_amount and
succeeds, raising the balance from one whole unit to one unit and three
thousandths; the same magnitude with positive sign is rejected, showing
the negation slip in the guard. -/
theorem fungible_take_negative_amount_eval :
    check_amount 2 (-(3 * 10 ^ 15)) = .ok () ∧
    vault_take 2 (10 ^ 18) (-(3 * 10 ^ 15))
      = .ok (10 ^ 18 + 3 * 10 ^ 15, -(3 * 10 ^ 15)) ∧
    check_amount 2 (3 * 10 ^ 15) = .error .invalidAmount := by
  refine ⟨by decide, ?_, by decide⟩
  show vault_take 2 (10 ^ 18) (-(3 * 10 ^ 15))
    = .ok (10 ^ 18 + 3 * 10 ^ 15, -(3 * 10 ^ 15))
  decide

/-- BTreeSet::remove of one id: presence flag and the set without it. -/
def setRemove (x : Nat) (c : List Nat) : Bool × List Nat :=
  (decide (x ∈ c), c.erase x)

/-- Ordered insertion into an id set, BTreeSet::insert. -/
def setInsert (x : Nat) : List Nat → List Nat
  | [] => [x]
  | y :: ys => if x < y then x :: y :: ys else if x = y then y :: ys else y :: setInsert x ys

/-- The removal loop of LiquidNonFungibleResource::take_by_ids: remove the
requested ids in order; stop with the failure flag at the first id that is
absent, keeping the removals already made. -/
def take_by_ids_go : List Nat → List Nat → List Nat × Bool
  | [], c => (c, true)
  | x :: xs, c =>
    let r := setRemove x c
    if r.1 then take_by_ids_go xs r.2 else (r.2, false)

/-- LiquidNonFungibleResource::take_by_ids: the result and the container
contents afterwards. -/
def take_by_ids (ids_to_take : List Nat) (c : List Nat) :
    Except ResourceError (List Nat) × List Nat :=
  let r := take_by_ids_go ids_to_take c
  (if r.2 then .ok ids_to_take else .error .insufficientBalance, r.1)

/-- LiquidNonFungibleResource::put: extend the id set by the other
container. -/
def nf_put (c other : List Nat) : List Nat :=
  other.foldl (fun acc x => setInsert x acc) c

/-- LiquidNonFungibleResource::take_all: return the ids, leave the empty
set behind. -/
def nf_take_all (c : List Nat) : List Nat × List Nat := (c, [])

theorem takeWhile_congr {α : Type} {p q : α → Bool} :
    ∀ {l : List α}, (∀ a ∈ l, p a = q a) → l.takeWhile p = l.takeWhile q := by
  intro l
  induction l with
  | nil => intro _; rfl
  | cons a t ih =>
    intro h
    simp only [List.takeWhile_cons]
    rw [h a (by simp)]
    cases hq : q a
    · rfl
    · rw [ih (fun x hx => h x (by simp [hx]))]

theorem takeWhile_all {α : Type} {p : α → Bool} :
    ∀ {l : List α}, (∀ a ∈ l, p a = true) → l.takeWhile p = l := by
  intro l
  induction l with
  | nil => intro _; rfl
  | cons a t ih =>
    intro h
    simp [List.takeWhile_cons, h a (by simp), ih (fun x hx => h x (by simp [hx]))]

theorem take_by_ids_go_spec (S : List Nat) :
    ∀ (c : List Nat), S.Nodup → c.Nodup →
    (((take_by_ids_go S c).2 = false) ↔ ∃ x ∈ S, x ∉ c) ∧
    (∀ y, y ∈ (take_by_ids_go S c).1 ↔
      (y ∈ c ∧ y ∉ S.takeWhile (fun z => decide (z ∈ c)))) ∧
    (take_by_ids_go S c).1.Nodup := by
  induction S with
  | nil =>
    intro c _ hc
    refine ⟨by simp [take_by_ids_go], ?_, hc⟩
    intro y
    simp [take_by_ids_go]
  | cons x xs ih =>
    intro c hS hc
    simp only [List.nodup_cons] at hS
    obtain ⟨hxnot, hxs⟩ := hS
    by_cases hx : x ∈ c
    · have hstep : take_by_ids_go (x :: xs) c = take_by_ids_go xs (c.erase x) := by
        simp [take_by_ids_go, setRemove, hx]
      have herased : (c.erase x).Nodup := hc.erase x
      obtain ⟨ih1, ih2, ih3⟩ := ih (c.erase x) hxs herased
      have hmemiff : ∀ z, z ∈ xs → (z ∈ c.erase x ↔ z ∈ c) := by
        intro z hz
        have hzx : z ≠ x := fun h => hxnot (h ▸ hz)
        rw [hc.mem_erase_iff]
        constructor
        · exact fun h => h.2
        · exact fun h => ⟨hzx, h⟩
      have htw : xs.takeWhile (fun z => decide (z ∈ c.erase x))
          = xs.takeWhile (fun z => decide (z ∈ c)) := by
        apply takeWhile_congr
        intro a ha
        exact decide_eq_decide.mpr (hmemiff a ha)
      refine ⟨?_, ?_, by rw [hstep]; exact ih3⟩
      · rw [hstep, ih1]
        constructor
        · rintro ⟨z, hz, hznot⟩
          exact ⟨z, by simp [hz], fun h => hznot (((hmemiff z hz).mpr h))⟩
        · rintro ⟨z, hz, hznot⟩
          simp only [List.mem_cons] at hz
          rcases hz with rfl | hz
          · exact absurd hx hznot
          · exact ⟨z, hz, fun h => hznot ((hmemiff z hz).mp h)⟩
      · intro y
        rw [hstep, ih2 y, htw]
        have htwc : (x :: xs).takeWhile (fun z => decide (z ∈ c))
            = x :: xs.takeWhile (fun z => decide (z ∈ c)) := by
          simp [List.takeWhile_cons, hx]
        rw [htwc, hc.mem_erase_iff]
        constructor
        · rintro ⟨⟨hyx, hyc⟩, hytw⟩
          exact ⟨hyc, by simp [hyx, hytw]⟩
        · rintro ⟨hyc, hytw⟩
          simp only [List.mem_cons, not_or] at hytw
          exact ⟨⟨hytw.1, hyc⟩, hytw.2⟩
    · have hstep : take_by_ids_go (x :: xs) c = (c.erase x, false) := by
        simp [take_by_ids_go, setRemove, hx]
      have herase : c.erase x = c := List.erase_of_not_mem hx
      refine ⟨?_, ?_, by rw [hstep, herase]; exact hc⟩
      · rw [hstep]
        simp only [true_iff]
        exact ⟨x, by simp, hx⟩
      · intro y
        rw [hstep, herase]
        have htwc : (x :: xs).takeWhile (fun z => decide (z ∈ c)) = [] := by
          simp [List.takeWhile_cons, hx]
        rw [htwc]
        simp

end Resource

namespace Resource

/-- C3 counterexample: taking the ids one and two from the container
holding only id one fails, yet the failed call has removed id one, so the
container is left empty instead of unchanged. -/
theorem take_by_ids_mutates_on_error_cex :
    take_by_ids [1, 2] [1]
      = (Except.error ResourceError.insufficientBalance, []) ∧
    ([] : List Nat) ≠ [1] := by
  exact ⟨by decide, by decide⟩

/-- C3 as amended. take_by_ids(S) errors exactly when some id of S is
absent; on success it removes exactly S from the container and returns S;
on failure the ids of S preceding the first absent one, in request order,
stay removed: the container afterwards holds its prior ids minus the
longest all-present head of S. -/
theorem take_by_ids_spec (S c : List Nat) (hS : S.Nodup) (hc : c.Nodup) :
    ((take_by_ids S c).1 = .error ResourceError.insufficientBalance
      ↔ ∃ x ∈ S, x ∉ c) ∧
    ((∀ x ∈ S, x ∈ c) →
      (take_by_ids S c).1 = .ok S ∧
      (∀ y, y ∈ (take_by_ids S c).2 ↔ (y ∈ c ∧ y ∉ S))) ∧
    (∀ y, y ∈ (take_by_ids S c).2 ↔
      (y ∈ c ∧ y ∉ S.takeWhile (fun z => decide (z ∈ c)))) := by
  obtain ⟨hgo1, hgo2, _⟩ := take_by_ids_go_spec S c hS hc
  have hfst : (take_by_ids S c).1
      = (if (take_by_ids_go S c).2 then .ok S else .error .insufficientBalance) := rfl
  have hsnd : (take_by_ids S c).2 = (take_by_ids_go S c).1 := rfl
  refine ⟨?_, ?_, ?_⟩
  · rw [hfst]
    cases hflag : (take_by_ids_go S c).2
    · simp only [if_false, Bool.false_eq_true]
      rw [← hgo1]
      simp [hflag]
    · simp only [if_true]
      constructor
      · intro hcon
        exact absurd hcon (by simp)
      · intro hex
        have := hgo1.mpr hex
        rw [hflag] at this
        exact absurd this (by simp)
  · intro hall
    have hflag : (take_by_ids_go S c).2 = true := by
      cases hflag : (take_by_ids_go S c).2
      · obtain ⟨x, hx, hxc⟩ := hgo1.mp hflag
        exact absurd (hall x hx) hxc
      · rfl
    have htw : S.takeWhile (fun z => decide (z ∈ c)) = S :=
      takeWhile_all (fun a ha => by simp [hall a ha])
    refine ⟨by rw [hfst, hflag]; simp, ?_⟩
    intro y
    rw [hsnd, hgo2 y, htw]
  · intro y
    rw [hsnd, hgo2 y]

/-- Witness for the amended take_by_ids law: requesting ids one and two
from the container of one, two and three. -/
theorem take_by_ids_spec_witness :
    ((take_by_ids [1, 2] [1, 2, 3]).1 = .error ResourceError.insufficientBalance
      ↔ ∃ x ∈ [1, 2], x ∉ [1, 2, 3]) ∧
    ((∀ x ∈ [1, 2], x ∈ [1, 2, 3]) →
      (take_by_ids [1, 2] [1, 2, 3]).1 = .ok [1, 2] ∧
      (∀ y, y ∈ (take_by_ids [1, 2] [1, 2, 3]).2 ↔ (y ∈ [1, 2, 3] ∧ y ∉ [1, 2]))) ∧
    (∀ y, y ∈ (take_by_ids [1, 2] [1, 2, 3]).2 ↔
      (y ∈ [1, 2, 3] ∧ y ∉ List.takeWhile (fun z => decide (z ∈ [1, 2, 3])) [1, 2])) :=
  take_by_ids_spec [1, 2] [1, 2, 3] (by decide) (by decide)

theorem setInsert_all_lt {x : Nat} : ∀ {acc : List Nat},
    (∀ a ∈ acc, a < x) → setInsert x acc = acc ++ [x] := by
  intro acc
  induction acc with
  | nil => intro _; rfl
  | cons y ys ih =>
    intro h
    have hy : y < x := h y (by simp)
    simp only [setInsert, if_neg (by omega : ¬ x < y), if_neg (by omega : ¬ x = y),
      List.cons_append]
    rw [ih (fun a ha => h a (by simp [ha]))]

theorem nf_put_append : ∀ (l acc : List Nat),
    List.Pairwise (· < ·) (acc ++ l) → nf_put acc l = acc ++ l := by
  intro l
  induction l with
  | nil => intro acc _; simp [nf_put]
  | cons x xs ih =>
    intro acc h
    have hsplit := List.pairwise_append.mp h
    obtain ⟨hacc, hxxs, hcross⟩ := hsplit
    have hstep : nf_put acc (x :: xs) = nf_put (setInsert x acc) xs := rfl
    have hins : setInsert x acc = acc ++ [x] :=
      setInsert_all_lt (fun a ha => hcross a ha x (by simp))
    rw [hstep, hins, ih (acc ++ [x])]
    · simp
    · simp only [List.append_assoc, List.singleton_append]
      exact h

/-- C9. take_all on a fungible container always succeeds, returns the
whole balance and zeroes the container; putting the result back restores
the balance, and putting an empty container is a no-op. The same laws for
the non-fungible container over its ordered id set. -/
theorem take_all_put_roundtrip :
    (∀ b : Int, take_all b = .ok (0, b)) ∧
    (∀ b : Int, put 0 b = b) ∧
    (∀ b : Int, put b 0 = b) ∧
    (∀ c : List Nat, nf_take_all c = (c, [])) ∧
    (∀ c : List Nat, List.Pairwise (· < ·) c → nf_put [] c = c) ∧
    (∀ c : List Nat, nf_put c [] = c) := by
  refine ⟨?_, ?_, ?_, ?_, ?_, ?_⟩
  · intro b
    simp [take_all, take_by_amount]
  · intro b
    simp [put]
  · intro b
    simp [put]
  · intro c
    rfl
  · intro c hc
    have := nf_put_append c [] (by simpa using hc)
    simpa using this
  · intro c
    rfl

/-- Witness for the take_all and put laws at the balance five and the id
set of two, five and nine. -/
theorem take_all_put_roundtrip_witness :
    take_all (5 : Int) = .ok (0, 5) ∧
    put 0 (5 : Int) = 5 ∧
    put (5 : Int) 0 = 5 ∧
    nf_take_all [2, 5, 9] = ([2, 5, 9], []) ∧
    nf_put [] [2, 5, 9] = [2, 5, 9] ∧
    nf_put [2, 5, 9] [] = [2, 5, 9] := by
  obtain ⟨h1, h2, h3, h4, h5, h6⟩ := take_all_put_roundtrip
  exact ⟨h1 5, h2 5, h3 5, h4 [2, 5, 9], h5 [2, 5, 9] (by decide), h6 [2, 5, 9]⟩

end Resource

namespace Auth

/-- Shape of the actor identifier, reduced to what the auth module
inspects: a method on a global object is the barrier case. -/
inductive ActorIdentifier where
  | methodGlobal : ActorIdentifier
  | methodLocal : ActorIdentifier
  | function : ActorIdentifier
  | virtualLazyLoad : ActorIdentifier
deriving DecidableEq, Repr

/-- The function identifier of an actor: package address and blueprint
name, both as opaque numerals. -/
structure FnIdentifier where
  packageAddress : Nat
  blueprintName : Nat
deriving DecidableEq, Repr

/-- An actor: its identifier shape and its function identifier. -/
structure Actor where
  identifier : ActorIdentifier
  fnIdentifier : FnIdentifier
deriving DecidableEq, Repr

/-- Opaque constant for the transaction processor package address. -/
def TRANSACTION_PROCESSOR_PACKAGE : Nat := 64

/-- Opaque constant for the transaction processor blueprint name. -/
def TRANSACTION_PROCESSOR_BLUEPRINT : Nat := 1

/-- Opaque constant for the package token resource address. -/
def PACKAGE_TOKEN : Nat := 71

/-- A non-fungible global id: resource address and local id bytes. -/
structure NonFungibleGlobalId where
  resource : Nat
  localId : List Nat
deriving DecidableEq, Repr

/-- The auth zone parameters of the transaction: signer proofs and
configured virtual resources. -/
structure AuthZoneParams where
  initialProofs : List NonFungibleGlobalId
  virtualResources : List Nat
deriving DecidableEq, Repr

/-- The auth zone state as constructed by AuthZone::new. -/
structure AuthZone where
  proofs : List Nat
  virtualResources : List Nat
  virtualNonFungibles : List NonFungibleGlobalId
  virtualNonFungiblesNonExtending : List NonFungibleGlobalId
  isBarrier : Bool
  parent : Option Nat
deriving DecidableEq, Repr

/-- AuthModule::is_barrier: a method actor on a global object. -/
def is_barrier (actor : Option Actor) : Bool :=
  match actor with
  | some a =>
    match a.identifier with
    | .methodGlobal => true
    | _ => false
  | none => false

/-- AuthModule::is_transaction_processor. -/
def is_transaction_processor (actor : Option Actor) : Bool :=
  match actor with
  | some a =>
    decide (a.fnIdentifier.packageAddress = TRANSACTION_PROCESSOR_PACKAGE)
      && decide (a.fnIdentifier.blueprintName = TRANSACTION_PROCESSOR_BLUEPRINT)
  | none => false

/-- The scrypto-encoded package address used as the bytes local id of the
package token proof; the address encoding is modelled from the spec wire
format, thirty bytes. -/
def package_address_bytes (a : Nat) : List Nat := Sbor.natToLE 30 a

/-- AuthModule::on_execution_start as the construction of the new auth
zone: the caller argument of the hook is unused by the source; the
package-actor virtual proof is keyed by the current actor read from the
kernel, the signer proofs and virtual resources are injected exactly for
the transaction processor, and the parent is the top of the auth zone
stack. -/
def on_execution_start (_caller : Option Actor) (current : Option Actor)
    (params : AuthZoneParams) (auth_zone_stack : List Nat) : AuthZone :=
  let vnfne : List NonFungibleGlobalId :=
    match current with
    | some a => [⟨PACKAGE_TOKEN, package_address_bytes a.fnIdentifier.packageAddress⟩]
    | none => []
  let tp := is_transaction_processor current
  { proofs := []
    virtualResources := if tp then params.virtualResources else []
    virtualNonFungibles := if tp then params.initialProofs else []
    virtualNonFungiblesNonExtending := vnfne
    isBarrier := is_barrier current
    parent := auth_zone_stack.getLast? }

/-- C6 counterexample: a frame of package two called from package one gets
a virtual package proof keyed to package two, its own package, not to the
package of the caller as the claim states. -/
theorem auth_zone_caller_package_cex :
    (⟨PACKAGE_TOKEN, package_address_bytes 1⟩ : NonFungibleGlobalId) ∉
      (on_execution_start (some ⟨.function, ⟨1, 5⟩⟩) (some ⟨.function, ⟨2, 5⟩⟩)
        ⟨[], []⟩ []).virtualNonFungiblesNonExtending ∧
    (on_execution_start (some ⟨.function, ⟨1, 5⟩⟩) (some ⟨.function, ⟨2, 5⟩⟩)
        ⟨[], []⟩ []).virtualNonFungiblesNonExtending
      = [⟨PACKAGE_TOKEN, package_address_bytes 2⟩] := by
  exact ⟨by decide, by decide⟩

/-- C6 as amended. The auth zone created at execution start holds exactly
one virtual non-fungible package-actor proof, keyed to the package address
of the callee itself (the current actor), for every caller; it holds the
transaction signer proofs and the configured virtual resources exactly
when the callee is the transaction processor; and it starts with no plain
proofs. -/
theorem on_execution_start_auth_zone_spec (caller current : Option Actor)
    (params : AuthZoneParams) (stack : List Nat) (a : Actor)
    (hc : current = some a) :
    (on_execution_start caller current params stack).virtualNonFungiblesNonExtending
      = [⟨PACKAGE_TOKEN, package_address_bytes a.fnIdentifier.packageAddress⟩] ∧
    (on_execution_start caller current params stack).virtualResources
      = (if is_transaction_processor current then params.virtualResources else []) ∧
    (on_execution_start caller current params stack).virtualNonFungibles
      = (if is_transaction_processor current then params.initialProofs else []) ∧
    (on_execution_start caller current params stack).proofs = [] := by
  subst hc
  exact ⟨rfl, rfl, rfl, rfl⟩

/-- Witness for the amended execution start law: the transaction processor
actor receives the signer proofs and virtual resources together with its
own package proof. -/
theorem on_execution_start_auth_zone_spec_witness :
    (on_execution_start none (some ⟨.function, ⟨64, 1⟩⟩)
        ⟨[⟨3, [9]⟩], [4]⟩ []).virtualNonFungiblesNonExtending
      = [⟨PACKAGE_TOKEN, package_address_bytes 64⟩] ∧
    (on_execution_start none (some ⟨.function, ⟨64, 1⟩⟩)
        ⟨[⟨3, [9]⟩], [4]⟩ []).virtualResources
      = (if is_transaction_processor (some ⟨.function, ⟨64, 1⟩⟩) then [4] else []) ∧
    (on_execution_start none (some ⟨.function, ⟨64, 1⟩⟩)
        ⟨[⟨3, [9]⟩], [4]⟩ []).virtualNonFungibles
      = (if is_transaction_processor (some ⟨.function, ⟨64, 1⟩⟩) then [⟨3, [9]⟩] else []) ∧
    (on_execution_start none (some ⟨.function, ⟨64, 1⟩⟩)
        ⟨[⟨3, [9]⟩], [4]⟩ []).proofs = [] :=
  on_execution_start_auth_zone_spec none (some ⟨.function, ⟨64, 1⟩⟩)
    ⟨[⟨3, [9]⟩], [4]⟩ [] ⟨.function, ⟨64, 1⟩⟩ rfl

end Auth

namespace Manifest

/-- A manifest value tree, reduced to a terminal kind and the nesting
container; modelled from the spec value grammar, the sbor decoder sources
being outside src. -/
inductive MValue where
  | u8 (b : Nat) : MValue
  | tuple (fields : List MValue) : MValue
deriving Repr

mutual

/-- Nesting depth of a value tree, the root counting one. -/
def mvalueDepth : MValue → Nat
  | .u8 _ => 1
  | .tuple fs => 1 + mvaluesMaxDepth fs

/-- Greatest nesting depth among sibling values. -/
def mvaluesMaxDepth : List MValue → Nat
  | [] => 0
  | v :: vs => max (mvalueDepth v) (mvaluesMaxDepth vs)

end

/-- Decode a fixed count of sibling values with the given child decoder,
threading the remaining input. -/
def iterDecode (step : List Nat → Except Store.DecodeErr (MValue × List Nat)) :
    Nat → List Nat → Except Store.DecodeErr (List MValue × List Nat)
  | 0, bs => .ok ([], bs)
  | n + 1, bs =>
    match step bs with
    | .ok (v, r) =>
      match iterDecode step n r with
      | .ok (vs, r2) => .ok (v :: vs, r2)
      | .error e => .error e
    | .error e => .error e

/-- Decode one value with a remaining depth budget: value kind byte, then
the body; a value met with the budget exhausted is the depth error, so a
payload nested beyond the initial budget is rejected. -/
def decodeMValue : Nat → List Nat → Except Store.DecodeErr (MValue × List Nat)
  | 0, _ => .error .maxDepthExceeded
  | d + 1, bs =>
    match bs with
    | [] => .error .bufferUnderflow
    | b :: rest =>
      if b = 7 then
        match rest with
        | v :: r => .ok (.u8 v, r)
        | [] => .error .bufferUnderflow
      else if b = 33 then
        match Store.readSize rest with
        | .ok (n, r) =>
          match iterDecode (decodeMValue d) n r with
          | .ok (vs, r2) => .ok (.tuple vs, r2)
          | .error e => .error e
        | .error e => .error e
      else .error .unexpectedTypeId

/-- The manifest payload discriminator byte. -/
def manifestPayloadByte : Nat := 77

/-- The manifest nesting depth limit. -/
def MANIFEST_SBOR_V1_MAX_DEPTH : Nat := 24

/-- manifest_decode: check the payload byte, decode one value under the
depth limit, reject trailing bytes. -/
def manifest_decode (bs : List Nat) : Except Store.DecodeErr MValue :=
  match bs with
  | [] => .error .bufferUnderflow
  | b :: rest =>
    if b = manifestPayloadByte then
      match decodeMValue MANIFEST_SBOR_V1_MAX_DEPTH rest with
      | .ok (v, rem) => if rem = [] then .ok v else .error .trailingBytes
      | .error e => .error e
    else .error .invalidPayloadByte

theorem mvaluesMaxDepth_le {vs : List MValue} {d : Nat}
    (h : ∀ v ∈ vs, mvalueDepth v ≤ d) : mvaluesMaxDepth vs ≤ d := by
  induction vs with
  | nil => simp [mvaluesMaxDepth]
  | cons v t ih =>
    simp only [mvaluesMaxDepth, max_le_iff]
    exact ⟨h v (by simp), ih (fun x hx => h x (by simp [hx]))⟩

theorem iterDecode_mem_bound {step : List Nat → Except Store.DecodeErr (MValue × List Nat)}
    {d : Nat} (hstep : ∀ bs v r, step bs = .ok (v, r) → mvalueDepth v ≤ d) :
    ∀ n bs vs r, iterDecode step n bs = .ok (vs, r) → ∀ v ∈ vs, mvalueDepth v ≤ d := by
  intro n
  induction n with
  | zero =>
    intro bs vs r h v hv
    simp only [iterDecode] at h
    injection h with h
    obtain ⟨h1, _⟩ := Prod.mk.injEq .. ▸ h
    rw [← h1] at hv
    simp at hv
  | succ n ih =>
    intro bs vs r h v hv
    simp only [iterDecode] at h
    cases hs : step bs with
    | ok p =>
      obtain ⟨v0, r0⟩ := p
      rw [hs] at h
      simp only at h
      cases hit : iterDecode step n r0 with
      | ok q =>
        obtain ⟨vs0, r2⟩ := q
        rw [hit] at h
        simp only at h
        injection h with h
        obtain ⟨h1, _⟩ := Prod.mk.injEq .. ▸ h
        rw [← h1] at hv
        simp only [List.mem_cons] at hv
        rcases hv with rfl | hv
        · exact hstep bs v r0 hs
        · exact ih r0 vs0 r2 hit v hv
      | error e =>
        rw [hit] at h
        simp at h
    | error e =>
      rw [hs] at h
      simp at h

theorem decodeMValue_depth_le :
    ∀ d bs v r, decodeMValue d bs = .ok (v, r) → mvalueDepth v ≤ d := by
  intro d
  induction d with
  | zero =>
    intro bs v r h
    simp [decodeMValue] at h
  | succ d ih =>
    intro bs v r h
    simp only [decodeMValue] at h
    cases bs with
    | nil => simp at h
    | cons b rest =>
      simp only at h
      by_cases hb7 : b = 7
      · rw [if_pos hb7] at h
        cases rest with
        | nil => simp at h
        | cons v0 r0 =>
          simp only at h
          injection h with h
          obtain ⟨h1, _⟩ := Prod.mk.injEq .. ▸ h
          rw [← h1]
          simp [mvalueDepth]
      · rw [if_neg hb7] at h
        by_cases hb33 : b = 33
        · rw [if_pos hb33] at h
          cases hr : Store.readSize rest with
          | ok p =>
            obtain ⟨n, r0⟩ := p
            rw [hr] at h
            simp only at h
            cases hit : iterDecode (decodeMValue d) n r0 with
            | ok q =>
              obtain ⟨vs, r2⟩ := q
              rw [hit] at h
              simp only at h
              injection h with h
              obtain ⟨h1, _⟩ := Prod.mk.injEq .. ▸ h
              rw [← h1]
              simp only [mvalueDepth]
              have hmem := iterDecode_mem_bound (fun bs2 v2 r3 hh => ih bs2 v2 r3 hh)
                n r0 vs r2 hit
              have := mvaluesMaxDepth_le hmem
              omega
            | error e =>
              rw [hit] at h
              simp at h
          | error e =>
            rw [hr] at h
            simp at h
        · rw [if_neg hb33] at h
          simp at h

end Manifest

namespace Manifest

theorem iterDecode_append {step : List Nat → Except Store.DecodeErr (MValue × List Nat)}
    (hstep : ∀ bs v r, step bs = .ok (v, r) → ∀ ex, step (bs ++ ex) = .ok (v, r ++ ex)) :
    ∀ n bs vs r, iterDecode step n bs = .ok (vs, r) →
      ∀ ex, iterDecode step n (bs ++ ex) = .ok (vs, r ++ ex) := by
  intro n
  induction n with
  | zero =>
    intro bs vs r h ex
    simp only [iterDecode] at h ⊢
    injection h with h
    obtain ⟨h1, h2⟩ := Prod.mk.injEq .. ▸ h
    rw [← h1, ← h2]
  | succ n ih =>
    intro bs vs r h ex
    simp only [iterDecode] at h ⊢
    cases hs : step bs with
    | ok p =>
      obtain ⟨v0, r0⟩ := p
      rw [hs] at h
      simp only at h
      cases hit : iterDecode step n r0 with
      | ok q =>
        obtain ⟨vs0, r2⟩ := q
        rw [hit] at h
        simp only at h
        injection h with h
        obtain ⟨h1, h2⟩ := Prod.mk.injEq .. ▸ h
        rw [hstep bs v0 r0 hs ex]
        simp only
        rw [ih r0 vs0 r2 hit ex]
        simp [← h1, ← h2]
      | error e =>
        rw [hit] at h
        simp at h
    | error e =>
      rw [hs] at h
      simp at h

theorem decodeMValue_append :
    ∀ d bs v r, decodeMValue d bs = .ok (v, r) →
      ∀ ex, decodeMValue d (bs ++ ex) = .ok (v, r ++ ex) := by
  intro d
  induction d with
  | zero =>
    intro bs v r h
    simp [decodeMValue] at h
  | succ d ih =>
    intro bs v r h ex
    simp only [decodeMValue] at h ⊢
    cases bs with
    | nil => simp at h
    | cons b rest =>
      simp only [List.cons_append] at h ⊢
      by_cases hb7 : b = 7
      · rw [if_pos hb7] at h ⊢
        cases rest with
        | nil => simp at h
        | cons v0 r0 =>
          simp only [List.cons_append] at h ⊢
          injection h with h
          obtain ⟨h1, h2⟩ := Prod.mk.injEq .. ▸ h
          rw [← h1, ← h2]
      · rw [if_neg hb7] at h ⊢
        by_cases hb33 : b = 33
        · rw [if_pos hb33] at h ⊢
          cases hr : Store.readSize rest with
          | ok p =>
            obtain ⟨n, r0⟩ := p
            rw [hr] at h
            simp only at h
            rw [Store.readSize_append hr ex]
            simp only
            cases hit : iterDecode (decodeMValue d) n r0 with
            | ok q =>
              obtain ⟨vs, r2⟩ := q
              rw [hit] at h
              simp only at h
              injection h with h
              obtain ⟨h1, h2⟩ := Prod.mk.injEq .. ▸ h
              rw [iterDecode_append (fun bs2 v2 r3 hh ex2 => ih bs2 v2 r3 hh ex2)
                n r0 vs r2 hit ex]
              simp [← h1, ← h2]
            | error e =>
              rw [hit] at h
              simp at h
          | error e =>
            rw [hr] at h
            simp at h
        · rw [if_neg hb33] at h
          simp at h

theorem manifest_decode_ok_elim {bs : List Nat} {v : MValue}
    (h : manifest_decode bs = .ok v) :
    ∃ rest, bs = manifestPayloadByte :: rest ∧
      decodeMValue MANIFEST_SBOR_V1_MAX_DEPTH rest = .ok (v, []) := by
  cases bs with
  | nil => simp [manifest_decode] at h
  | cons b rest =>
    simp only [manifest_decode] at h
    by_cases hb : b = manifestPayloadByte
    · rw [if_pos hb] at h
      cases hd : decodeMValue MANIFEST_SBOR_V1_MAX_DEPTH rest with
      | ok p =>
        obtain ⟨v0, rem⟩ := p
        rw [hd] at h
        simp only at h
        by_cases hrem : rem = []
        · rw [if_pos hrem] at h
          injection h with h
          refine ⟨rest, by rw [hb], ?_⟩
          rw [hd, hrem, h]
        · rw [if_neg hrem] at h
          simp at h
      | error e =>
        rw [hd] at h
        simp at h
    · rw [if_neg hb] at h
      simp at h

/-- The nested tuple payload body of the given extra nesting: each level a
one-element tuple, the innermost a u8 leaf; its value depth is the index
plus one. -/
def nestedTupleBytes : Nat → List Nat
  | 0 => [7, 0]
  | d + 1 => 33 :: 1 :: nestedTupleBytes d

/-- C7. Manifest decoding never yields a value nested deeper than the
depth limit of twenty four: the concrete payload nested twenty five deep
is rejected with the depth error, and any payload followed by trailing
bytes is rejected with the trailing bytes error. -/
theorem manifest_decode_depth_and_trailing :
    (∀ bs v, manifest_decode bs = .ok v →
      mvalueDepth v ≤ MANIFEST_SBOR_V1_MAX_DEPTH) ∧
    manifest_decode (manifestPayloadByte :: nestedTupleBytes 24)
      = .error .maxDepthExceeded ∧
    (∀ bs v ex, manifest_decode bs = .ok v → ex ≠ [] →
      manifest_decode (bs ++ ex) = .error .trailingBytes) := by
  refine ⟨?_, by rfl, ?_⟩
  · intro bs v h
    obtain ⟨rest, _, hd⟩ := manifest_decode_ok_elim h
    exact decodeMValue_depth_le _ rest v [] hd
  · intro bs v ex h hex
    obtain ⟨rest, hbs, hd⟩ := manifest_decode_ok_elim h
    have hd2 := decodeMValue_append _ rest v [] hd ex
    simp only [List.nil_append] at hd2
    rw [hbs]
    simp only [List.cons_append, manifest_decode, if_pos rfl]
    rw [hd2]
    simp only
    rw [if_neg hex]
    simp

/-- Witness for the manifest depth and trailing laws: a two-element tuple
payload decodes within the depth bound, and the same payload with one
trailing byte is rejected. -/
theorem manifest_decode_depth_and_trailing_witness :
    mvalueDepth (.tuple [.u8 1, .u8 2]) ≤ MANIFEST_SBOR_V1_MAX_DEPTH ∧
    manifest_decode (manifestPayloadByte :: nestedTupleBytes 24)
      = .error .maxDepthExceeded ∧
    manifest_decode ([77, 33, 2, 7, 1, 7, 2] ++ [0]) = .error .trailingBytes := by
  obtain ⟨h1, h2, h3⟩ := manifest_decode_depth_and_trailing
  exact ⟨h1 [77, 33, 2, 7, 1, 7, 2] (.tuple [.u8 1, .u8 2]) rfl, h2,
    h3 [77, 33, 2, 7, 1, 7, 2] (.tuple [.u8 1, .u8 2]) [0] rfl (by simp)⟩

end Manifest

namespace NonFungible

/-- The id type tags of the older non-fungible id representation. -/
inductive NonFungibleIdType where
  | string : NonFungibleIdType
  | number : NonFungibleIdType
  | bytes : NonFungibleIdType
  | uuid : NonFungibleIdType
deriving DecidableEq, Repr

/-- Parse error of NonFungibleId::try_from. -/
inductive ParseNonFungibleIdError where
  | invalidHex : ParseNonFungibleIdError
  | invalidValue : ParseNonFungibleIdError
deriving DecidableEq, Repr

/-- The scrypto payload discriminator byte. -/
def scryptoPayloadByte : Nat := 92

/-- read_slice of the fixed width followed by check_end, inlined: the body
must hold at least n bytes and nothing after them. -/
def fixedBody (n : Nat) (body : List Nat) (ret : NonFungibleIdType) :
    Except Store.DecodeErr NonFungibleIdType :=
  if n ≤ body.length then
    (if body.drop n = [] then .ok ret else .error .trailingBytes)
  else .error .bufferUnderflow

/-- read_size, read_slice of that size, then check_end. -/
def sizedBody (body : List Nat) (ret : NonFungibleIdType) :
    Except Store.DecodeErr NonFungibleIdType :=
  match Store.readSize body with
  | .ok (n, rem) => fixedBody n rem ret
  | .error e => .error e

/-- validate_id of non_fungible_id.rs: payload byte, type id byte, then
the tagged body; u32, u64 and u128 are numbers, u8 arrays are bytes,
strings are strings, and the input must end exactly with the body. -/
def validate_id (slice : List Nat) : Except Store.DecodeErr NonFungibleIdType :=
  match slice with
  | [] => .error .bufferUnderflow
  | p :: rest =>
    if p = scryptoPayloadByte then
      match rest with
      | [] => .error .bufferUnderflow
      | t :: body =>
        if t = 9 then fixedBody 4 body .number
        else if t = 10 then fixedBody 8 body .number
        else if t = 11 then fixedBody 16 body .number
        else if t = 32 then
          match body with
          | [] => .error .bufferUnderflow
          | et :: b2 =>
            if et = 7 then sizedBody b2 .bytes
            else .error .unexpectedTypeId
        else if t = 12 then sizedBody body .string
        else .error .unexpectedTypeId
    else .error .invalidPayloadByte

/-- NonFungibleId::try_from over a byte slice: validate, then keep the
raw bytes and the id type. -/
def try_from (slice : List Nat) :
    Except ParseNonFungibleIdError (NonFungibleIdType × List Nat) :=
  match validate_id slice with
  | .ok t => .ok (t, slice)
  | .error _ => .error .invalidValue

/-- C8 counterexample: a u32 payload of four body bytes and a string
payload of sixty five bytes are both accepted, although the claim admits
only u64 integers and strings of at most sixty four bytes. -/
theorem validate_id_accepts_u32_cex :
    validate_id [92, 9, 5, 0, 0, 0] = .ok .number ∧
    try_from [92, 9, 5, 0, 0, 0] = .ok (.number, [92, 9, 5, 0, 0, 0]) ∧
    validate_id (92 :: 12 :: 65 :: List.replicate 65 97) = .ok .string := by
  exact ⟨by decide, by decide, by decide⟩

theorem fixedBody_eq (n : Nat) (body : List Nat) (ret : NonFungibleIdType) :
    fixedBody n body ret
      = (if body.length = n then .ok ret
        else if n ≤ body.length then .error .trailingBytes
        else .error .bufferUnderflow) := by
  have hdl : (body.drop n).length = body.length - n := List.length_drop n body
  simp only [fixedBody]
  by_cases h1 : n ≤ body.length
  · rw [if_pos h1]
    by_cases h2 : body.length = n
    · have hnil : body.drop n = [] := List.length_eq_zero.mp (by omega)
      rw [if_pos hnil, if_pos h2]
    · have hnotnil : ¬ body.drop n = [] := by
        intro hc
        rw [hc] at hdl
        simp at hdl
        omega
      rw [if_neg hnotnil, if_neg h2, if_pos h1]
  · rw [if_neg h1, if_neg (by omega : ¬ body.length = n), if_neg h1]

/-- C8 as amended. validate_id accepts exactly: u32, u64 and u128 bodies
of exactly four, eight and sixteen bytes as Number; u8 arrays whose size
header matches the body, of any length, as Bytes; strings whose size
header matches the body, of any length and with no utf8 check, as String;
every other type id, payload byte, short body or trailing byte is
rejected. There is no sixty-four byte bound and no separate sixteen byte
ruid shape. -/
theorem validate_id_accepted_shapes :
    validate_id [] = .error .bufferUnderflow ∧
    (∀ p rest, p ≠ 92 → validate_id (p :: rest) = .error .invalidPayloadByte) ∧
    validate_id [92] = .error .bufferUnderflow ∧
    (∀ body, validate_id (92 :: 9 :: body)
      = (if body.length = 4 then .ok .number
        else if 4 ≤ body.length then .error .trailingBytes
        else .error .bufferUnderflow)) ∧
    (∀ body, validate_id (92 :: 10 :: body)
      = (if body.length = 8 then .ok .number
        else if 8 ≤ body.length then .error .trailingBytes
        else .error .bufferUnderflow)) ∧
    (∀ body, validate_id (92 :: 11 :: body)
      = (if body.length = 16 then .ok .number
        else if 16 ≤ body.length then .error .trailingBytes
        else .error .bufferUnderflow)) ∧
    (∀ b2 n rem, Store.readSize b2 = .ok (n, rem) →
      validate_id (92 :: 32 :: 7 :: b2)
        = (if rem.length = n then .ok .bytes
          else if n ≤ rem.length then .error .trailingBytes
          else .error .bufferUnderflow)) ∧
    (∀ et b2, et ≠ 7 → validate_id (92 :: 32 :: et :: b2)
      = .error .unexpectedTypeId) ∧
    (∀ body n rem, Store.readSize body = .ok (n, rem) →
      validate_id (92 :: 12 :: body)
        = (if rem.length = n then .ok .string
          else if n ≤ rem.length then .error .trailingBytes
          else .error .bufferUnderflow)) ∧
    (∀ t body, t ∉ ([9, 10, 11, 32, 12] : List Nat) →
      validate_id (92 :: t :: body) = .error .unexpectedTypeId) := by
  refine ⟨rfl, ?_, rfl, ?_, ?_, ?_, ?_, ?_, ?_, ?_⟩
  · intro p rest hp
    simp only [validate_id]
    rw [if_neg (by simpa [scryptoPayloadByte] using hp)]
  · intro body
    show fixedBody 4 body .number = _
    exact fixedBody_eq 4 body .number
  · intro body
    show fixedBody 8 body .number = _
    exact fixedBody_eq 8 body .number
  · intro body
    show fixedBody 16 body .number = _
    exact fixedBody_eq 16 body .number
  · intro b2 n rem hr
    show sizedBody b2 .bytes = _
    simp only [sizedBody, hr]
    exact fixedBody_eq n rem .bytes
  · intro et b2 het
    show (if et = 7 then sizedBody b2 .bytes else .error .unexpectedTypeId) = _
    rw [if_neg het]
  · intro body n rem hr
    show sizedBody body .string = _
    simp only [sizedBody, hr]
    exact fixedBody_eq n rem .string
  · intro t body ht
    simp only [List.mem_cons, not_or] at ht
    obtain ⟨h9, h10, h11, h32, h12, _⟩ := ht
    simp only [validate_id, if_pos rfl]
    rw [if_neg h9, if_neg h10, if_neg h11, if_neg h32, if_neg h12]
    simp [scryptoPayloadByte]

/-- Witness for the amended validate_id law: the five accepted shapes and
one rejected type id at concrete inputs. -/
theorem validate_id_accepted_shapes_witness :
    validate_id [] = .error .bufferUnderflow ∧
    validate_id [13, 9] = .error .invalidPayloadByte ∧
    validate_id (92 :: 9 :: [1, 2, 3, 4])
      = (if ([1, 2, 3, 4] : List Nat).length = 4 then .ok .number
        else if 4 ≤ ([1, 2, 3, 4] : List Nat).length then .error .trailingBytes
        else .error .bufferUnderflow) ∧
    validate_id (92 :: 32 :: 7 :: [2, 8, 9])
      = (if ([8, 9] : List Nat).length = 2 then .ok .bytes
        else if 2 ≤ ([8, 9] : List Nat).length then .error .trailingBytes
        else .error .bufferUnderflow) ∧
    validate_id (92 :: 12 :: [1, 97])
      = (if ([97] : List Nat).length = 1 then .ok .string
        else if 1 ≤ ([97] : List Nat).length then .error .trailingBytes
        else .error .bufferUnderflow) ∧
    validate_id (92 :: 2 :: [0]) = .error .unexpectedTypeId := by
  obtain ⟨h1, h2, _, h4, _, _, h7, _, h9, h10⟩ := validate_id_accepted_shapes
  exact ⟨h1, h2 13 [9] (by decide), h4 [1, 2, 3, 4],
    h7 [2, 8, 9] 2 [8, 9] (by decide), h9 [1, 97] 1 [97] (by decide),
    h10 2 [0] (by decide)⟩

end NonFungible

namespace Runtime

/-- The buffer table of ScryptoRuntime: stored buffers and the id
counter; BufferId is modelled as an unbounded numeral, its machine alias
not being under src. -/
structure RuntimeState where
  buffers : List (Nat × List Nat)
  nextBufferId : Nat
deriving DecidableEq, Repr

/-- Host-side error of the buffer calls. -/
inductive WasmRuntimeError where
  | bufferNotFound (id : Nat) : WasmRuntimeError
deriving DecidableEq, Repr

/-- BTreeMap::get over the buffer table. -/
def bufLookup (id : Nat) : List (Nat × List Nat) → Option (List Nat)
  | [] => none
  | (a, b) :: t => if a = id then some b else bufLookup id t

/-- BTreeMap::insert over the buffer table, replacing an equal key. -/
def bufInsert (id : Nat) (v : List Nat) : List (Nat × List Nat) → List (Nat × List Nat)
  | [] => [(id, v)]
  | (a, b) :: t => if a = id then (id, v) :: t else (a, b) :: bufInsert id v t

/-- BTreeMap::remove over the buffer table. -/
def bufRemove (id : Nat) : List (Nat × List Nat) → List (Nat × List Nat)
  | [] => []
  | (a, b) :: t => if a = id then bufRemove id t else (a, b) :: bufRemove id t

/-- ScryptoRuntime::allocate_buffer: store under the current counter and
advance it; returns the fresh id. -/
def allocate_buffer (s : RuntimeState) (bytes : List Nat) : Nat × RuntimeState :=
  (s.nextBufferId, ⟨bufInsert s.nextBufferId bytes s.buffers, s.nextBufferId + 1⟩)

/-- ScryptoRuntime::consume_buffer: remove and return the stored bytes, or
fail with BufferNotFound. -/
def consume_buffer (s : RuntimeState) (id : Nat) :
    Except WasmRuntimeError (List Nat × RuntimeState) :=
  match bufLookup id s.buffers with
  | some b => .ok (b, ⟨bufRemove id s.buffers, s.nextBufferId⟩)
  | none => .error (.bufferNotFound id)

/-- One host call touching the buffer table. -/
inductive RuntimeOp where
  | alloc (bytes : List Nat) : RuntimeOp
  | consume (id : Nat) : RuntimeOp
deriving DecidableEq, Repr

/-- Apply one buffer call to the state; a failed consume leaves the state
unchanged. -/
def runtimeStep (s : RuntimeState) : RuntimeOp → RuntimeState
  | .alloc bytes => (allocate_buffer s bytes).2
  | .consume id =>
    match consume_buffer s id with
    | .ok (_, s2) => s2
    | .error _ => s

/-- Run a sequence of buffer calls. -/
def runtimeExec (s : RuntimeState) (ops : List RuntimeOp) : RuntimeState :=
  ops.foldl runtimeStep s

/-- Invariant of the buffer table: every stored id is below the counter. -/
def BuffersWF (s : RuntimeState) : Prop := ∀ e ∈ s.buffers, e.1 < s.nextBufferId

theorem bufLookup_mem {id : Nat} {l : List (Nat × List Nat)} {b : List Nat}
    (h : bufLookup id l = some b) : (id, b) ∈ l := by
  induction l with
  | nil => simp [bufLookup] at h
  | cons e t ih =>
    obtain ⟨a, v⟩ := e
    simp only [bufLookup] at h
    by_cases ha : a = id
    · rw [if_pos ha] at h
      injection h with h
      rw [← ha, ← h]
      exact List.mem_cons_self _ _
    · rw [if_neg ha] at h
      exact List.mem_cons_of_mem _ (ih h)

theorem bufLookup_insert_self (id : Nat) (v : List Nat) (l : List (Nat × List Nat)) :
    bufLookup id (bufInsert id v l) = some v := by
  induction l with
  | nil => simp [bufInsert, bufLookup]
  | cons e t ih =>
    obtain ⟨a, b⟩ := e
    simp only [bufInsert]
    by_cases ha : a = id
    · rw [if_pos ha]
      simp [bufLookup]
    · rw [if_neg ha]
      simp only [bufLookup, if_neg ha]
      exact ih

theorem bufLookup_remove_self (id : Nat) (l : List (Nat × List Nat)) :
    bufLookup id (bufRemove id l) = none := by
  induction l with
  | nil => rfl
  | cons e t ih =>
    obtain ⟨a, b⟩ := e
    simp only [bufRemove]
    by_cases ha : a = id
    · rw [if_pos ha]
      exact ih
    · rw [if_neg ha]
      simp only [bufLookup, if_neg ha]
      exact ih

theorem mem_bufRemove {id : Nat} {l : List (Nat × List Nat)}
    {x : Nat × List Nat} (h : x ∈ bufRemove id l) : x ∈ l := by
  induction l with
  | nil => simp [bufRemove] at h
  | cons e t ih =>
    obtain ⟨a, b⟩ := e
    simp only [bufRemove] at h
    by_cases ha : a = id
    · rw [if_pos ha] at h
      exact List.mem_cons_of_mem _ (ih h)
    · rw [if_neg ha] at h
      simp only [List.mem_cons] at h
      rcases h with h | h
      · exact List.mem_cons.mpr (Or.inl h)
      · exact List.mem_cons_of_mem _ (ih h)

theorem mem_bufInsert {id : Nat} {v : List Nat} {l : List (Nat × List Nat)}
    {x : Nat × List Nat} (h : x ∈ bufInsert id v l) : x = (id, v) ∨ x ∈ l := by
  induction l with
  | nil => simpa [bufInsert] using h
  | cons e t ih =>
    obtain ⟨a, b⟩ := e
    simp only [bufInsert] at h
    by_cases ha : a = id
    · rw [if_pos ha] at h
      simp only [List.mem_cons] at h
      rcases h with h | h
      · exact Or.inl h
      · exact Or.inr (by simp [h])
    · rw [if_neg ha] at h
      simp only [List.mem_cons] at h
      rcases h with h | h
      · exact Or.inr (by simp [h])
      · rcases ih h with h2 | h2
        · exact Or.inl h2
        · exact Or.inr (by simp [h2])

theorem runtimeStep_next_mono (s : RuntimeState) (op : RuntimeOp) :
    s.nextBufferId ≤ (runtimeStep s op).nextBufferId := by
  cases op with
  | alloc bytes => simp [runtimeStep, allocate_buffer]
  | consume id =>
    simp only [runtimeStep]
    cases h : consume_buffer s id with
    | ok p =>
      obtain ⟨v, s2⟩ := p
      simp only [consume_buffer] at h
      cases hl : bufLookup id s.buffers with
      | some b =>
        rw [hl] at h
        simp only at h
        injection h with h
        obtain ⟨_, h2⟩ := Prod.mk.injEq .. ▸ h
        rw [← h2]
      | none =>
        rw [hl] at h
        simp at h
    | error e => exact le_refl _

theorem runtimeExec_next_mono (ops : List RuntimeOp) :
    ∀ s : RuntimeState, s.nextBufferId ≤ (runtimeExec s ops).nextBufferId := by
  induction ops with
  | nil => intro s; exact le_refl _
  | cons op rest ih =>
    intro s
    exact le_trans (runtimeStep_next_mono s op) (ih (runtimeStep s op))

theorem buffersWF_step (s : RuntimeState) (op : RuntimeOp) (hwf : BuffersWF s) :
    BuffersWF (runtimeStep s op) := by
  cases op with
  | alloc bytes =>
    intro e he
    simp only [runtimeStep, allocate_buffer] at he ⊢
    rcases mem_bufInsert he with h | h
    · rw [h]
      simp
    · have := hwf e h
      omega
  | consume id =>
    simp only [runtimeStep]
    cases h : consume_buffer s id with
    | ok p =>
      obtain ⟨v, s2⟩ := p
      simp only [consume_buffer] at h
      cases hl : bufLookup id s.buffers with
      | some b =>
        rw [hl] at h
        simp only at h
        injection h with h
        obtain ⟨_, h2⟩ := Prod.mk.injEq .. ▸ h
        rw [← h2]
        intro e he
        exact hwf e (mem_bufRemove he)
      | none =>
        rw [hl] at h
        simp at h
    | error e => exact hwf

/-- C10. In the WASM host runtime the buffers are linear: allocate returns
the counter as a fresh id absent from the table and advances the counter;
the first consume of a fresh buffer returns its bytes, a second consume of
the same id fails with BufferNotFound, and a consume of a never-allocated
id fails the same way; the invariant carries over every call, the counter
never decreases along any call sequence, and no later allocation ever
returns an id already returned. -/
theorem scrypto_runtime_buffer_linearity (s : RuntimeState) (b : List Nat)
    (hwf : BuffersWF s) :
    (allocate_buffer s b).1 = s.nextBufferId ∧
    bufLookup s.nextBufferId s.buffers = none ∧
    (allocate_buffer s b).2.nextBufferId = s.nextBufferId + 1 ∧
    (∃ s2, consume_buffer (allocate_buffer s b).2 s.nextBufferId = .ok (b, s2) ∧
      consume_buffer s2 s.nextBufferId
        = .error (.bufferNotFound s.nextBufferId)) ∧
    (∀ id, s.nextBufferId ≤ id →
      consume_buffer s id = .error (.bufferNotFound id)) ∧
    (∀ op, BuffersWF (runtimeStep s op)) ∧
    (∀ ops, s.nextBufferId ≤ (runtimeExec s ops).nextBufferId) ∧
    (∀ ops b2, (allocate_buffer (runtimeExec (allocate_buffer s b).2 ops) b2).1
      ≠ (allocate_buffer s b).1) := by
  have hfresh : ∀ id, s.nextBufferId ≤ id → bufLookup id s.buffers = none := by
    intro id hid
    cases hl : bufLookup id s.buffers with
    | none => rfl
    | some v =>
      have := hwf _ (bufLookup_mem hl)
      simp only at this
      omega
  refine ⟨rfl, hfresh _ (le_refl _), rfl, ?_, ?_, fun op => buffersWF_step s op hwf,
    fun ops => runtimeExec_next_mono ops s, ?_⟩
  · refine ⟨⟨bufRemove s.nextBufferId (bufInsert s.nextBufferId b s.buffers),
      s.nextBufferId + 1⟩, ?_, ?_⟩
    · simp only [consume_buffer, allocate_buffer, bufLookup_insert_self]
    · simp only [consume_buffer, bufLookup_remove_self]
  · intro id hid
    simp only [consume_buffer, hfresh id hid]
  · intro ops b2
    have h1 := runtimeExec_next_mono ops (allocate_buffer s b).2
    simp only [allocate_buffer] at h1 ⊢
    omega

/-- Witness for the buffer linearity laws at the empty runtime state. -/
theorem scrypto_runtime_buffer_linearity_witness :
    (allocate_buffer ⟨[], 0⟩ [3, 4]).1 = 0 ∧
    bufLookup 0 ([] : List (Nat × List Nat)) = none ∧
    (allocate_buffer ⟨[], 0⟩ [3, 4]).2.nextBufferId = 0 + 1 ∧
    (∃ s2, consume_buffer (allocate_buffer ⟨[], 0⟩ [3, 4]).2 0 = .ok ([3, 4], s2) ∧
      consume_buffer s2 0 = .error (.bufferNotFound 0)) ∧
    (∀ id, 0 ≤ id → consume_buffer ⟨[], 0⟩ id = .error (.bufferNotFound id)) ∧
    (∀ op, BuffersWF (runtimeStep ⟨[], 0⟩ op)) ∧
    (∀ ops, 0 ≤ (runtimeExec ⟨[], 0⟩ ops).nextBufferId) ∧
    (∀ ops b2,
      (allocate_buffer (runtimeExec (allocate_buffer ⟨[], 0⟩ [3, 4]).2 ops) b2).1
        ≠ (allocate_buffer ⟨[], 0⟩ [3, 4]).1) :=
  scrypto_runtime_buffer_linearity ⟨[], 0⟩ [3, 4] (by intro e he; simp at he)

end Runtime
